import Mathlib

namespace Httpe

def encChunks (i : Nat) : List Nat :=
  if i < 128 then [i] else (i % 128 + 128) :: encChunks (i / 128)
termination_by i
decreasing_by exact Nat.div_lt_self (by omega) (by omega)

def encode_integer (i w p : Nat) : List Nat :=
  if w < 1 ∨ 8 ≤ w then []
  else
    let a := (1 <<< w) - 1
    if i < a then [(i % 256) ||| p]
    else ((a % 256) ||| p) :: encChunks (i - a)

def decode_integer_go (n m : Nat) : List Nat → Nat × List Nat
  | [] => (n, [])
  | i :: rest =>
    let n2 := n + (i &&& 0x7f) * (1 <<< m)
    if i &&& 0x80 = 0 then (n2, rest) else decode_integer_go n2 (m + 7) rest

def decode_integer (n : Nat) (l : List Nat) : Nat × List Nat :=
  decode_integer_go n 0 l

def read_prefixed (w : Nat) (l : List Nat) : Nat × List Nat :=
  match l with
  | [] => (0, [])
  | b :: rest =>
    let x := b % (1 <<< w)
    if x = (1 <<< w) - 1 then decode_integer x rest else (x, rest)

-- helper lemmas

end Httpe

namespace H3Prty

open Httpe

def encode_var (i : Nat) (p : Nat) : List Nat :=
  match p with
  | 0 => [(i % 256) &&& 0x3f]
  | 1 => [(((i >>> 8) % 256) &&& 0x3f) ||| 0x40, i % 256]
  | 2 => [(((i >>> 24) % 256) &&& 0x3f) ||| 0x80, (i >>> 16) % 256, (i >>> 8) % 256, i % 256]
  | 3 => [((i >>> 56) % 256) ||| 0xc0, (i >>> 48) % 256, (i >>> 40) % 256, (i >>> 32) % 256,
          (i >>> 24) % 256, (i >>> 16) % 256, (i >>> 8) % 256, i % 256]
  | _ => []

def decode_var_go (v : Nat) : Nat → List Nat → Nat × List Nat
  | 0, l => (v, l)
  | _ + 1, [] => (v, [])
  | cnt + 1, i :: rest => decode_var_go ((v <<< 8) ||| i) cnt rest

def decode_var (l : List Nat) : Nat × List Nat :=
  match l with
  | [] => (0, [])
  | i :: rest =>
    let pfx := i >>> 6
    decode_var_go (i &&& 0x3f) ((1 <<< pfx) - 1) rest

def encode_u64 (n : Nat) : List Nat :=
  if n ≤ 63 then encode_var n 0
  else if n ≤ 16383 then encode_var n 1
  else if n ≤ 1073741823 then encode_var n 2
  else if n ≤ 4611686018427387903 then encode_var n 3
  else []

def u64_to_var (a : Nat) : List Nat := encode_u64 a

def beBytes (i : Nat) : Nat → List Nat
  | 0 => []
  | k + 1 => ((i >>> (8 * k)) % 256) :: beBytes i k

end H3Prty

namespace Tables

def tableSize (es : List (List Nat × List Nat)) : Nat :=
  (es.map (fun e => e.1.length + e.2.length + 32)).sum

def evictEntriesGo (cap : Nat) : Nat → List (List Nat × List Nat) → List (List Nat × List Nat)
  | 0, es => es
  | fuel + 1, es =>
    if tableSize es > cap then
      if es.isEmpty then es else evictEntriesGo cap fuel es.dropLast
    else es

def evictEntries (cap : Nat) (es : List (List Nat × List Nat)) : List (List Nat × List Nat) :=
  evictEntriesGo cap es.length es

structure IndexingTables where
  capacity : Nat
  entries : List (List Nat × List Nat)

def IndexingTables.size (t : IndexingTables) : Nat := tableSize t.entries

def IndexingTables.eviction (t : IndexingTables) : IndexingTables :=
  ⟨t.capacity, evictEntries t.capacity t.entries⟩

def IndexingTables.size_update (t : IndexingTables) (n : Nat) : IndexingTables :=
  IndexingTables.eviction ⟨n, t.entries⟩

def IndexingTables.add (t : IndexingTables) (name value : List Nat) : IndexingTables :=
  IndexingTables.eviction ⟨t.capacity, (name, value) :: t.entries⟩

structure DynamicTable where
  capacity : Nat
  absolute : Nat
  buffer : List (List Nat × List Nat)

def DynamicTable.size (t : DynamicTable) : Nat := tableSize t.buffer

def DynamicTable.eviction (t : DynamicTable) : DynamicTable :=
  { t with buffer := evictEntries t.capacity t.buffer }

def DynamicTable.set_capacity (t : DynamicTable) (n : Nat) : DynamicTable :=
  DynamicTable.eviction { t with capacity := n }

def DynamicTable.add (t : DynamicTable) (name value : List Nat) : DynamicTable :=
  DynamicTable.eviction { t with absolute := t.absolute + 1, buffer := (name, value) :: t.buffer }

end Tables

namespace Huffman

/-- Modelled from the spec: the fixed RFC 7541 Appendix B Huffman code table
`HUFFMAN_CODE` lives in `src/h2/huffman/assist.rs`, which is absent from the
sources; each entry is the `(code, length-in-bits)` pair for one symbol,
index 256 being EOS. -/
def HUFFMAN_CODE : List (Nat × Nat) := [
  (0x1ff8, 13), (0x7fffd8, 23), (0xfffffe2, 28), (0xfffffe3, 28),
  (0xfffffe4, 28), (0xfffffe5, 28), (0xfffffe6, 28), (0xfffffe7, 28),
  (0xfffffe8, 28), (0xffffea, 24), (0x3ffffffc, 30), (0xfffffe9, 28),
  (0xfffffea, 28), (0x3ffffffd, 30), (0xfffffeb, 28), (0xfffffec, 28),
  (0xfffffed, 28), (0xfffffee, 28), (0xfffffef, 28), (0xffffff0, 28),
  (0xffffff1, 28), (0xffffff2, 28), (0x3ffffffe, 30), (0xffffff3, 28),
  (0xffffff4, 28), (0xffffff5, 28), (0xffffff6, 28), (0xffffff7, 28),
  (0xffffff8, 28), (0xffffff9, 28), (0xffffffa, 28), (0xffffffb, 28),
  (0x14, 6), (0x3f8, 10), (0x3f9, 10), (0xffa, 12),
  (0x1ff9, 13), (0x15, 6), (0xf8, 8), (0x7fa, 11),
  (0x3fa, 10), (0x3fb, 10), (0xf9, 8), (0x7fb, 11),
  (0xfa, 8), (0x16, 6), (0x17, 6), (0x18, 6),
  (0x0, 5), (0x1, 5), (0x2, 5), (0x19, 6),
  (0x1a, 6), (0x1b, 6), (0x1c, 6), (0x1d, 6),
  (0x1e, 6), (0x1f, 6), (0x5c, 7), (0xfb, 8),
  (0x7ffc, 15), (0x20, 6), (0xffb, 12), (0x3fc, 10),
  (0x1ffa, 13), (0x21, 6), (0x5d, 7), (0x5e, 7),
  (0x5f, 7), (0x60, 7), (0x61, 7), (0x62, 7),
  (0x63, 7), (0x64, 7), (0x65, 7), (0x66, 7),
  (0x67, 7), (0x68, 7), (0x69, 7), (0x6a, 7),
  (0x6b, 7), (0x6c, 7), (0x6d, 7), (0x6e, 7),
  (0x6f, 7), (0x70, 7), (0x71, 7), (0x72, 7),
  (0xfc, 8), (0x73, 7), (0xfd, 8), (0x1ffb, 13),
  (0x7fff0, 19), (0x1ffc, 13), (0x3ffc, 14), (0x22, 6),
  (0x7ffd, 15), (0x3, 5), (0x23, 6), (0x4, 5),
  (0x24, 6), (0x5, 5), (0x25, 6), (0x26, 6),
  (0x27, 6), (0x6, 5), (0x74, 7), (0x75, 7),
  (0x28, 6), (0x29, 6), (0x2a, 6), (0x7, 5),
  (0x2b, 6), (0x76, 7), (0x2c, 6), (0x8, 5),
  (0x9, 5), (0x2d, 6), (0x77, 7), (0x78, 7),
  (0x79, 7), (0x7a, 7), (0x7b, 7), (0x7ffe, 15),
  (0x7fc, 11), (0x3ffd, 14), (0x1ffd, 13), (0xffffffc, 28),
  (0xfffe6, 20), (0x3fffd2, 22), (0xfffe7, 20), (0xfffe8, 20),
  (0x3fffd3, 22), (0x3fffd4, 22), (0x3fffd5, 22), (0x7fffd9, 23),
  (0x3fffd6, 22), (0x7fffda, 23), (0x7fffdb, 23), (0x7fffdc, 23),
  (0x7fffdd, 23), (0x7fffde, 23), (0xffffeb, 24), (0x7fffdf, 23),
  (0xffffec, 24), (0xffffed, 24), (0x3fffd7, 22), (0x7fffe0, 23),
  (0xffffee, 24), (0x7fffe1, 23), (0x7fffe2, 23), (0x7fffe3, 23),
  (0x7fffe4, 23), (0x1fffdc, 21), (0x3fffd8, 22), (0x7fffe5, 23),
  (0x3fffd9, 22), (0x7fffe6, 23), (0x7fffe7, 23), (0xffffef, 24),
  (0x3fffda, 22), (0x1fffdd, 21), (0xfffe9, 20), (0x3fffdb, 22),
  (0x3fffdc, 22), (0x7fffe8, 23), (0x7fffe9, 23), (0x1fffde, 21),
  (0x7fffea, 23), (0x3fffdd, 22), (0x3fffde, 22), (0xfffff0, 24),
  (0x1fffdf, 21), (0x3fffdf, 22), (0x7fffeb, 23), (0x7fffec, 23),
  (0x1fffe0, 21), (0x1fffe1, 21), (0x3fffe0, 22), (0x1fffe2, 21),
  (0x7fffed, 23), (0x3fffe1, 22), (0x7fffee, 23), (0x7fffef, 23),
  (0xfffea, 20), (0x3fffe2, 22), (0x3fffe3, 22), (0x3fffe4, 22),
  (0x7ffff0, 23), (0x3fffe5, 22), (0x3fffe6, 22), (0x7ffff1, 23),
  (0x3ffffe0, 26), (0x3ffffe1, 26), (0xfffeb, 20), (0x7fff1, 19),
  (0x3fffe7, 22), (0x7ffff2, 23), (0x3fffe8, 22), (0x1ffffec, 25),
  (0x3ffffe2, 26), (0x3ffffe3, 26), (0x3ffffe4, 26), (0x7ffffde, 27),
  (0x7ffffdf, 27), (0x3ffffe5, 26), (0xfffff1, 24), (0x1ffffed, 25),
  (0x7fff2, 19), (0x1fffe3, 21), (0x3ffffe6, 26), (0x7ffffe0, 27),
  (0x7ffffe1, 27), (0x3ffffe7, 26), (0x7ffffe2, 27), (0xfffff2, 24),
  (0x1fffe4, 21), (0x1fffe5, 21), (0x3ffffe8, 26), (0x3ffffe9, 26),
  (0xffffffd, 28), (0x7ffffe3, 27), (0x7ffffe4, 27), (0x7ffffe5, 27),
  (0xfffec, 20), (0xfffff3, 24), (0xfffed, 20), (0x1fffe6, 21),
  (0x3fffe9, 22), (0x1fffe7, 21), (0x1fffe8, 21), (0x7ffff3, 23),
  (0x3fffea, 22), (0x3fffeb, 22), (0x1ffffee, 25), (0x1ffffef, 25),
  (0xfffff4, 24), (0xfffff5, 24), (0x3ffffea, 26), (0x7ffff4, 23),
  (0x3ffffeb, 26), (0x7ffffe6, 27), (0x3ffffec, 26), (0x3ffffed, 26),
  (0x7ffffe7, 27), (0x7ffffe8, 27), (0x7ffffe9, 27), (0x7ffffea, 27),
  (0x7ffffeb, 27), (0xffffffe, 28), (0x7ffffec, 27), (0x7ffffed, 27),
  (0x7ffffee, 27), (0x7ffffef, 27), (0x7fffff0, 27), (0x3ffffee, 26),
  (0x3fffffff, 30)]

def hcode (i : Nat) : Nat × Nat := HUFFMAN_CODE.getD i (0, 0)

def natBits (v : Nat) : Nat → List Bool
  | 0 => []
  | n + 1 => v.testBit n :: natBits v n

def hbits (i : Nat) : List Bool := natBits (hcode i).1 (hcode i).2

def bitsVal (l : List Bool) : Nat := l.foldl (fun a b => 2 * a + b.toNat) 0

def hflush (buffer count : Nat) (acc : List Nat) : Nat × Nat × List Nat :=
  if count ≤ 32 then
    hflush ((buffer <<< 8) % 2 ^ 64) (count + 8) (acc ++ [(buffer >>> 32) % 256])
  else (buffer, count, acc)
termination_by 33 - count

def encode_huffman_go : List Nat → Nat → Nat → List Nat → List Nat
  | [], buffer, count, acc =>
    if count ≠ 40 then acc ++ [((buffer ||| ((1 <<< count) - 1)) >>> 32) % 256] else acc
  | i :: rest, buffer, count, acc =>
    let c := hcode i
    let buffer2 := buffer ||| ((c.1 <<< (count - c.2)) % 2 ^ 64)
    let count2 := count - c.2
    let r := hflush buffer2 count2 acc
    encode_huffman_go rest r.1 r.2.1 r.2.2

def encode_huffman (reader : List Nat) : List Nat := encode_huffman_go reader 0 40 []

/-- Modelled from the spec: the decoder's `DECODE_STATE_ARRAY`
(`src/h2/huffman/assist.rs`) is absent from the sources.  Its generator
`build_decode_state_array` in `src/h2/huffman/mod.rs` identifies each DFA
state with the string of pending bits; `findCode` is the lookup that
generator performs: the code, if any, that is a prefix of the pending bits. -/
def findCode (l : List Bool) : Option Nat :=
  (List.range 257).find? (fun i => l.take (hcode i).2 == hbits i)

/-- Modelled from the spec: one DFA transition of
`src/h2/huffman/mod.rs::decode_huffman` on the pending-bit representation of
states — append the nibble's four bits, then strip at most one completed
code, reporting its symbol. -/
def hstep (st nib : List Bool) : List Bool × Option Nat :=
  let l := st ++ nib
  match findCode l with
  | some i => (l.drop (hcode i).2, some i)
  | none => (l, none)

def hnib (st : List Bool) (nibv : Nat) (acc : List Nat) : Option (List Bool × List Nat) :=
  let r := hstep st (natBits nibv 4)
  match r.2 with
  | some n => if n < 256 then some (r.1, acc ++ [n]) else none
  | none => some (r.1, acc)

def decode_huffman_go : List Nat → List Bool → List Nat → List Nat
  | [], _, acc => acc
  | b :: rest, st, acc =>
    match hnib st (b >>> 4) acc with
    | none => acc
    | some (st1, acc1) =>
      match hnib st1 (b % 16) acc1 with
      | none => acc1
      | some (st2, acc2) => decode_huffman_go rest st2 acc2

def decode_huffman (reader : List Nat) : List Nat := decode_huffman_go reader [] []

end Huffman

namespace Hpack

open Httpe Tables Huffman

def strBytes (s : String) : List Nat := s.data.map Char.toNat

/-- Modelled from the spec: `crate::common::get_bytes`, used by
`src/h2/prty.rs::decode_literal_to_vec`, is absent from the sources; per the
spec's reader interface it takes the next `r` bytes, leaving the rest. -/
def get_bytes (r : Nat) (l : List Nat) : List Nat × List Nat := (l.take r, l.drop r)

def decode_literal_to_vec (l : List Nat) : List Nat × List Nat :=
  match l with
  | [] => ([], [])
  | i :: rest =>
    if 128 ≤ i ∧ i < 255 then
      let r := i &&& 0x7f
      let g := get_bytes r rest
      (decode_huffman g.1, g.2)
    else if i = 255 then
      let d := decode_integer 127 rest
      let g := get_bytes d.1 d.2
      (decode_huffman g.1, g.2)
    else if i < 127 then
      get_bytes i rest
    else
      let d := decode_integer 127 rest
      get_bytes d.1 d.2

def STATIC_TABLE : List (List Nat × List Nat) := [
  (strBytes ":authority", strBytes ""),
  (strBytes ":method", strBytes "GET"),
  (strBytes ":method", strBytes "POST"),
  (strBytes ":path", strBytes "/"),
  (strBytes ":path", strBytes "/index.html"),
  (strBytes ":scheme", strBytes "http"),
  (strBytes ":scheme", strBytes "https"),
  (strBytes ":status", strBytes "200"),
  (strBytes ":status", strBytes "204"),
  (strBytes ":status", strBytes "206"),
  (strBytes ":status", strBytes "304"),
  (strBytes ":status", strBytes "400"),
  (strBytes ":status", strBytes "404"),
  (strBytes ":status", strBytes "500"),
  (strBytes "accept-charset", strBytes ""),
  (strBytes "accept-encoding", strBytes "gzip, deflate"),
  (strBytes "accept-language", strBytes ""),
  (strBytes "accept-ranges", strBytes ""),
  (strBytes "accept", strBytes ""),
  (strBytes "access-control-allow-origin", strBytes ""),
  (strBytes "age", strBytes ""),
  (strBytes "allow", strBytes ""),
  (strBytes "authorization", strBytes ""),
  (strBytes "cache-control", strBytes ""),
  (strBytes "content-disposition", strBytes ""),
  (strBytes "content-encoding", strBytes ""),
  (strBytes "content-language", strBytes ""),
  (strBytes "content-length", strBytes ""),
  (strBytes "content-location", strBytes ""),
  (strBytes "content-range", strBytes ""),
  (strBytes "content-type", strBytes ""),
  (strBytes "cookie", strBytes ""),
  (strBytes "date", strBytes ""),
  (strBytes "etag", strBytes ""),
  (strBytes "expect", strBytes ""),
  (strBytes "expires", strBytes ""),
  (strBytes "from", strBytes ""),
  (strBytes "host", strBytes ""),
  (strBytes "if-match", strBytes ""),
  (strBytes "if-modified-since", strBytes ""),
  (strBytes "if-none-match", strBytes ""),
  (strBytes "if-range", strBytes ""),
  (strBytes "if-unmodified-since", strBytes ""),
  (strBytes "last-modified", strBytes ""),
  (strBytes "link", strBytes ""),
  (strBytes "location", strBytes ""),
  (strBytes "max-forwards", strBytes ""),
  (strBytes "proxy-authenticate", strBytes ""),
  (strBytes "proxy-authorization", strBytes ""),
  (strBytes "range", strBytes ""),
  (strBytes "referer", strBytes ""),
  (strBytes "refresh", strBytes ""),
  (strBytes "retry-after", strBytes ""),
  (strBytes "server", strBytes ""),
  (strBytes "set-cookie", strBytes ""),
  (strBytes "strict-transport-security", strBytes ""),
  (strBytes "transfer-encoding", strBytes ""),
  (strBytes "user-agent", strBytes ""),
  (strBytes "vary", strBytes ""),
  (strBytes "via", strBytes ""),
  (strBytes "www-authenticate", strBytes "")]

def STATIC_TABLE_LEN : Nat := 61

def IndexingTables.get_entry (t : IndexingTables) (n : Nat) : Option (List Nat × List Nat) :=
  if 0 < n ∧ n ≤ STATIC_TABLE_LEN then STATIC_TABLE.get? (n - 1)
  else if STATIC_TABLE_LEN < n then t.entries.get? (n - STATIC_TABLE_LEN - 1)
  else none

def IndexingTables.get_name (t : IndexingTables) (n : Nat) : Option (List Nat) :=
  (IndexingTables.get_entry t n).map Prod.fst

structure DecSt where
  tables : IndexingTables
  output : List (List Nat × List Nat)

def DecSt.indexed (st : DecSt) (n : Nat) : DecSt :=
  match IndexingTables.get_entry st.tables n with
  | some e => { st with output := st.output ++ [e] }
  | none => st

def DecSt.incremental_indexing_indexed_name (st : DecSt) (n : Nat) (value : List Nat) : DecSt :=
  match IndexingTables.get_name st.tables n with
  | some name =>
    { tables := st.tables.add name value, output := st.output ++ [(name, value)] }
  | none => st

def DecSt.incremental_indexing_new_name (st : DecSt) (name value : List Nat) : DecSt :=
  { tables := st.tables.add name value, output := st.output ++ [(name, value)] }

def DecSt.without_indexing_indexed_name (st : DecSt) (n : Nat) (value : List Nat) : DecSt :=
  match IndexingTables.get_name st.tables n with
  | some name => { st with output := st.output ++ [(name, value)] }
  | none => st

def DecSt.without_indexing_new_name (st : DecSt) (name value : List Nat) : DecSt :=
  { st with output := st.output ++ [(name, value)] }

def DecSt.never_indexed_indexed_name (st : DecSt) (n : Nat) (value : List Nat) : DecSt :=
  match IndexingTables.get_name st.tables n with
  | some name => { st with output := st.output ++ [(name, value)] }
  | none => st

def DecSt.never_indexed_new_name (st : DecSt) (name value : List Nat) : DecSt :=
  { st with output := st.output ++ [(name, value)] }

def DecSt.dynamic_table_size_update (st : DecSt) (n : Nat) : DecSt :=
  { st with tables := st.tables.size_update n }

def decode_u8 (i : Nat) (rest : List Nat) (st : DecSt) : DecSt × List Nat :=
  if 129 ≤ i ∧ i < 255 then (st.indexed (i &&& 0x7f), rest)
  else if i = 255 then
    let d := decode_integer 127 rest
    (st.indexed d.1, d.2)
  else if i = 128 then (st, rest)
  else if 65 ≤ i ∧ i < 127 then
    let v := decode_literal_to_vec rest
    (st.incremental_indexing_indexed_name (i &&& 0x3f) v.1, v.2)
  else if i = 127 then
    let d := decode_integer 63 rest
    let v := decode_literal_to_vec d.2
    (st.incremental_indexing_indexed_name d.1 v.1, v.2)
  else if i = 64 then
    let nm := decode_literal_to_vec rest
    let v := decode_literal_to_vec nm.2
    (st.incremental_indexing_new_name nm.1 v.1, v.2)
  else if 1 ≤ i ∧ i < 15 then
    let v := decode_literal_to_vec rest
    (st.without_indexing_indexed_name i v.1, v.2)
  else if i = 15 then
    let d := decode_integer 15 rest
    let v := decode_literal_to_vec d.2
    (st.without_indexing_indexed_name d.1 v.1, v.2)
  else if i = 0 then
    let nm := decode_literal_to_vec rest
    let v := decode_literal_to_vec nm.2
    (st.without_indexing_new_name nm.1 v.1, v.2)
  else if 17 ≤ i ∧ i < 31 then
    let v := decode_literal_to_vec rest
    (st.never_indexed_indexed_name (i &&& 0x0f) v.1, v.2)
  else if i = 31 then
    let d := decode_integer 15 rest
    let v := decode_literal_to_vec d.2
    (st.never_indexed_indexed_name d.1 v.1, v.2)
  else if i = 16 then
    let nm := decode_literal_to_vec rest
    let v := decode_literal_to_vec nm.2
    (st.never_indexed_new_name nm.1 v.1, v.2)
  else if 32 ≤ i ∧ i < 63 then (st.dynamic_table_size_update (i &&& 0x1f), rest)
  else
    let d := decode_integer 31 rest
    (st.dynamic_table_size_update d.1, d.2)

def hpackDecodeGo : Nat → List Nat → DecSt → DecSt
  | 0, _, st => st
  | _ + 1, [], st => st
  | fuel + 1, i :: rest, st =>
    let r := decode_u8 i rest st
    hpackDecodeGo fuel r.2 r.1

def hpackDecode (l : List Nat) (st : DecSt) : DecSt := hpackDecodeGo l.length l st

def c31bytes : List Nat :=
  [0x82, 0x86, 0x84, 0x41, 0x0f, 0x77, 0x77, 0x77, 0x2e, 0x65, 0x78, 0x61, 0x6d, 0x70,
   0x6c, 0x65, 0x2e, 0x63, 0x6f, 0x6d]

end Hpack

namespace Qpack

open Httpe

def fi_pre (required_insert_count : Nat) ( s_bit : Bool) (delta_base : Nat) : List Nat :=
  encode_integer required_insert_count 8 0x00 ++
    (if s_bit then encode_integer delta_base 7 0x80 else encode_integer delta_base 7 0x00)

def fi_decode_pre (l : List Nat) : Option (Nat × Bool × Nat) :=
  match l with
  | [] => none
  | i :: rest =>
    let p := if i < 255 then (i, rest) else decode_integer 255 rest
    match p.2 with
    | [] => none
    | j :: rest2 =>
      if j < 127 then some (p.1, false, j &&& 0x7f)
      else if j = 127 then some (p.1, false, (decode_integer 127 rest2).1)
      else if j < 255 then some (p.1, true, j &&& 0x7f)
      else some (p.1, true, (decode_integer 127 rest2).1)

end Qpack

namespace Reader

def fetch_all (n : Nat) (l : List Nat) : Option (List Nat) × List Nat :=
  if n ≤ l.length then (some (l.take n), l.drop n) else (none, l)

def beVal (l : List Nat) : Nat := l.foldl (fun a b => a * 256 + b) 0

def fetch_u128 (l : List Nat) : Option Nat × List Nat :=
  match fetch_all 16 l with
  | (some v, rest) => (if v.length = 8 then some (beVal v) else none, rest)
  | (none, rest) => (none, rest)

end Reader

namespace Frame

def MAX_FRAME_LENGTH : Nat := 16777215

def check_capacity (capacity : Nat) : Nat :=
  if capacity = 0 then 4096
  else if capacity < MAX_FRAME_LENGTH then capacity
  else MAX_FRAME_LENGTH

def padded_f (a : Bool) (b : Nat) : Bool :=
  if b ≥ MAX_FRAME_LENGTH then false else a

def length_f (a : Nat) : Nat :=
  if a ≤ MAX_FRAME_LENGTH then a else MAX_FRAME_LENGTH

def pad_length_f (a : Nat) (b : Nat) : Nat × Nat :=
  if a < MAX_FRAME_LENGTH then
    let c := a + b
    if c ≤ MAX_FRAME_LENGTH then (c, b) else (MAX_FRAME_LENGTH, MAX_FRAME_LENGTH - a)
  else (MAX_FRAME_LENGTH, 0)

def fill_header (len ty flags sid : Nat) : List Nat :=
  [(len >>> 16) % 256, (len >>> 8) % 256, len % 256, ty, flags,
   ((sid >>> 24) % 256) &&& 0x7f, (sid >>> 16) % 256, (sid >>> 8) % 256, sid % 256]

structure DataEncoder where
  stream_identifier : Nat
  padded : Bool
  end_stream : Bool
  pad_length : Nat
  data : List Nat

def DataEncoder.flags (e : DataEncoder) : Nat :=
  (if e.padded then 0x08 else 0) ||| (if e.end_stream then 0x01 else 0)

def DataEncoder.encode (e : DataEncoder) : List Nat :=
  if padded_f e.padded e.data.length then
    let lp := pad_length_f (1 + e.data.length) e.pad_length
    fill_header lp.1 0x00 e.flags e.stream_identifier ++ [lp.2] ++ e.data ++
      List.replicate lp.2 0
  else
    fill_header (length_f e.data.length) 0x00 e.flags e.stream_identifier ++ e.data

inductive FrameError where
  | InvalidFrameType
  | LengthShortage
  | LengthExcess
deriving DecidableEq, Repr

def bit_eq (i f : Nat) : Bool := i &&& f = f

def get_31_uint (a b c d : Nat) : Nat :=
  (a &&& 0x7f) * 2 ^ 24 + b * 2 ^ 16 + c * 2 ^ 8 + d

def get_header (v : List Nat) : Nat × Nat × Nat × Nat :=
  (v.getD 0 0 * 2 ^ 16 + v.getD 1 0 * 2 ^ 8 + v.getD 2 0, v.getD 3 0, v.getD 4 0,
   get_31_uint (v.getD 5 0) (v.getD 6 0) (v.getD 7 0) (v.getD 8 0))

def check_length (length v_len : Nat) (err : List FrameError) : Nat × List FrameError :=
  let f_len := length + 9
  if v_len = f_len then (f_len, err)
  else if v_len < f_len then (f_len, err ++ [FrameError.LengthShortage])
  else (f_len, err ++ [FrameError.LengthExcess])

structure DataDecoder where
  length : Nat
  stream_identifier : Nat
  padded : Bool
  end_stream : Bool
  pad_length : Nat
  data : Nat × Nat
  buffer : List Nat
  err : List FrameError

def DataDecoder.decode (v : List Nat) : DataDecoder :=
  let h := get_header v
  let v_len := v.length
  let c := check_length h.1 v_len []
  let f_len := c.1
  let padded := bit_eq h.2.2.1 0x08
  let d0 := if padded then 10 else 9
  let pl := if padded then (if v_len > 9 then v.getD 9 0 else 0) else 0
  let d1 := if padded ∧ v_len > 9 then f_len - pl else f_len
  let err := if padded ∧ ¬ (v_len > 9) then c.2 ++ [FrameError.LengthShortage] else c.2
  { length := h.1, stream_identifier := h.2.2.2, padded := padded,
    end_stream := bit_eq h.2.2.1 0x01, pad_length := pl, data := (d0, d1),
    buffer := v, err := err }

def DataDecoder.data_slice (d : DataDecoder) : Option (List Nat) :=
  if d.data.1 ≤ d.data.2 ∧ d.data.2 ≤ d.buffer.length then
    some ((d.buffer.drop d.data.1).take (d.data.2 - d.data.1))
  else none

inductive FrameDec where
  | Data (d : DataDecoder)
  | Other
  | Invalid (e : FrameError)

def FrameDecoder_decode (buf : List Nat) : FrameDec :=
  if buf.length ≥ 9 then
    match buf.getD 3 0 with
    | 0 => FrameDec.Data (DataDecoder.decode buf)
    | _ => FrameDec.Other
  else FrameDec.Invalid FrameError.LengthShortage

def c6enc : DataEncoder :=
  { stream_identifier := 1, padded := true, end_stream := true, pad_length := 100,
    data := List.replicate 1000 0x01 }

def FrameDec.dataDec : FrameDec → Option DataDecoder
  | FrameDec.Data d => some d
  | _ => none

end Frame

namespace Assist

open Httpe Frame

def fill_priority (exclusive : Bool) (stream_dependency weight : Nat) : List Nat :=
  (if exclusive then ((stream_dependency >>> 24) % 256) ||| 0x80
   else ((stream_dependency >>> 24) % 256) &&& 0x7f) ::
  [(stream_dependency >>> 16) % 256, (stream_dependency >>> 8) % 256, stream_dependency % 256,
   weight]

def fill_stream_id (stream_id : Nat) : List Nat :=
  [((stream_id >>> 24) % 256) &&& 0x7f, (stream_id >>> 16) % 256, (stream_id >>> 8) % 256,
   stream_id % 256]

structure HeadersEncoder where
  stream_identifier : Nat
  priority : Bool
  padded : Bool
  end_headers : Bool
  end_stream : Bool
  pad_length : Nat
  exclusive : Bool
  stream_dependency : Nat
  weight : Nat
  field_block_fragment : List Nat
  cap : Nat

def HeadersEncoder.new (stream_identifier capacity : Nat) : HeadersEncoder :=
  { stream_identifier := stream_identifier, priority := false, padded := false,
    end_headers := false, end_stream := false, pad_length := 0, exclusive := false,
    stream_dependency := 0, weight := 0, field_block_fragment := [],
    cap := check_capacity capacity }

def HeadersEncoder.flags (e : HeadersEncoder) : Nat :=
  (if e.priority then 0x20 else 0) ||| (if e.padded then 0x08 else 0) |||
  (if e.end_headers then 0x04 else 0) ||| (if e.end_stream then 0x01 else 0)

def HeadersEncoder.encode (e : HeadersEncoder) : List Nat :=
  let flags := e.flags
  let stream := e.stream_identifier
  if e.priority then
    let n := 5 + e.field_block_fragment.length
    if padded_f e.padded n then
      let lp := pad_length_f (1 + n) e.pad_length
      fill_header lp.1 0x01 flags stream ++ [lp.2] ++
        fill_priority e.exclusive e.stream_dependency e.weight ++
        e.field_block_fragment ++ List.replicate lp.2 0
    else
      fill_header (length_f n) 0x01 flags stream ++
        fill_priority e.exclusive e.stream_dependency e.weight ++ e.field_block_fragment
  else
    let n := e.field_block_fragment.length
    if padded_f e.padded n then
      let lp := pad_length_f (1 + n) e.pad_length
      fill_header lp.1 0x01 flags stream ++ [lp.2] ++ e.field_block_fragment ++
        List.replicate lp.2 0
    else
      fill_header (length_f n) 0x01 flags stream ++ e.field_block_fragment

structure ContinuationEncoder where
  stream_identifier : Nat
  end_headers : Bool
  field_block_fragment : List Nat
  cap : Nat

def ContinuationEncoder.new (stream_identifier capacity : Nat) : ContinuationEncoder :=
  { stream_identifier := stream_identifier, end_headers := false,
    field_block_fragment := [], cap := check_capacity capacity }

def ContinuationEncoder.flags (e : ContinuationEncoder) : Nat :=
  if e.end_headers then 0x04 else 0x00

def ContinuationEncoder.encode (e : ContinuationEncoder) : List Nat :=
  fill_header (length_f e.field_block_fragment.length) 0x09 e.flags e.stream_identifier ++
    e.field_block_fragment

structure PushPromiseEncoder where
  stream_identifier : Nat
  padded : Bool
  end_headers : Bool
  pad_length : Nat
  promised_stream_id : Nat
  field_block_fragment : List Nat
  cap : Nat

def PushPromiseEncoder.new (stream_identifier capacity : Nat) : PushPromiseEncoder :=
  { stream_identifier := stream_identifier, padded := false, end_headers := false,
    pad_length := 0, promised_stream_id := 0, field_block_fragment := [],
    cap := check_capacity capacity }

def PushPromiseEncoder.flags (e : PushPromiseEncoder) : Nat :=
  (if e.padded then 0x08 else 0) ||| (if e.end_headers then 0x04 else 0)

def PushPromiseEncoder.encode (e : PushPromiseEncoder) : List Nat :=
  let n := 4 + e.field_block_fragment.length
  if padded_f e.padded n then
    let lp := pad_length_f (1 + n) e.pad_length
    fill_header lp.1 0x05 e.flags e.stream_identifier ++ [lp.2] ++
      fill_stream_id e.promised_stream_id ++ e.field_block_fragment ++ List.replicate lp.2 0
  else
    fill_header (length_f n) 0x05 e.flags e.stream_identifier ++
      fill_stream_id e.promised_stream_id ++ e.field_block_fragment

inductive HC where
  | headers (h : HeadersEncoder)
  | continuation (c : ContinuationEncoder)
  | pushPromise (p : PushPromiseEncoder)
  | noneBuf
  | unused

def HC.surplus_mut : HC → Nat
  | HC.headers h => h.cap - h.field_block_fragment.length
  | HC.continuation c => c.cap - c.field_block_fragment.length
  | HC.pushPromise p => p.cap - p.field_block_fragment.length
  | HC.noneBuf => 0
  | HC.unused => 0

def HC.putB : HC → Nat → HC
  | HC.headers h, o => HC.headers { h with field_block_fragment := h.field_block_fragment ++ [o] }
  | HC.continuation c, o =>
    HC.continuation { c with field_block_fragment := c.field_block_fragment ++ [o] }
  | HC.pushPromise p, o =>
    HC.pushPromise { p with field_block_fragment := p.field_block_fragment ++ [o] }
  | b, _ => b

structure EncHelper where
  fields_capacity : Nat
  continuation_capacity : Nat
  push_promise : Bool
  sid : Nat
  output : List (List Nat)
  buffer : HC

def EncHelper.new : EncHelper :=
  { fields_capacity := 0, continuation_capacity := 0, push_promise := false, sid := 1,
    output := [], buffer := HC.unused }

def EncHelper.next_ (st : EncHelper) : EncHelper :=
  match st.buffer with
  | HC.headers _ => st
  | HC.continuation _ => st
  | HC.pushPromise _ => st
  | HC.noneBuf =>
    { st with
      sid := st.sid + 1
      buffer := HC.continuation (ContinuationEncoder.new st.sid st.continuation_capacity) }
  | HC.unused =>
    if st.push_promise then
      { st with
        sid := st.sid + 1
        buffer := HC.pushPromise (PushPromiseEncoder.new st.sid st.fields_capacity) }
    else
      { st with
        sid := st.sid + 1
        buffer := HC.headers (HeadersEncoder.new st.sid st.fields_capacity) }

def EncHelper.flush (st : EncHelper) : EncHelper :=
  match st.buffer with
  | HC.headers h =>
    { st with
      output := st.output ++ [h.encode]
      buffer := HC.noneBuf }
  | HC.continuation c =>
    { st with
      output := st.output ++ [c.encode]
      buffer := HC.noneBuf }
  | HC.pushPromise p =>
    { st with
      output := st.output ++ [p.encode]
      buffer := HC.noneBuf }
  | _ => { st with buffer := HC.noneBuf }

def EncHelper.put : Nat → EncHelper → Nat → EncHelper
  | 0, st, _ => st
  | fuel + 1, st, o =>
    if st.buffer.surplus_mut > 0 then { st with buffer := st.buffer.putB o }
    else EncHelper.put fuel (st.flush.next_) o

def EncHelper.putBytes (st : EncHelper) (l : List Nat) : EncHelper :=
  l.foldl (fun s o => EncHelper.put 2 s o) st

def EncHelper.fieldIndexed (st : EncHelper) (n : Nat) : EncHelper :=
  (st.next_).putBytes (encode_integer n 7 0x80)

def c9run : EncHelper := ((EncHelper.new).fieldIndexed 2).flush

end Assist

namespace Request

def CR : Nat := 13

def LF : Nat := 10

def SPACE : Nat := 32

def HTAB : Nat := 9

def COLON : Nat := 58

def DOT : Nat := 46

def HYPHEN : Nat := 45

def is_crlf (b : Nat) : Bool := b = CR ∨ b = LF

def is_whitespace (b : Nat) : Bool := b = SPACE ∨ b = HTAB

def isAlpha (b : Nat) : Bool := (65 ≤ b ∧ b ≤ 90) ∨ (97 ≤ b ∧ b ≤ 122)

def isAlnum (b : Nat) : Bool := isAlpha b ∨ (48 ≤ b ∧ b ≤ 57)

def isGraphic (b : Nat) : Bool := 0x21 ≤ b ∧ b ≤ 0x7e

def firstNonWs : Nat → List Nat → Nat → Option Nat
  | 0, _, _ => none
  | fuel + 1, buf, i =>
    if ¬ is_whitespace (buf.getD i 0) then some i else firstNonWs fuel buf (i + 1)

def lastNonWs : Nat → List Nat → Nat → Option Nat
  | 0, _, _ => none
  | fuel + 1, buf, i =>
    if ¬ is_whitespace (buf.getD (i - 1) 0) then some i else lastNonWs fuel buf (i - 1)

def trim_whitespace (buf : List Nat) (index0 index1 : Nat) : Nat × Nat :=
  let i0 := (firstNonWs (index1 - index0) buf index0).getD index0
  let i1 := ((lastNonWs (index1 - i0) buf index1).map (fun i => i)).getD index1
  (i0, i1)

inductive StateTag where
  | methodFirst | methodTail | space | cr | lf
  | targetFirst | targetTail | versionFirst | versionTail
  | headerNameFirst | headerNameTail | colon | headerValueFirst | headerValueTail
  | bodyFirst | bodyTail
deriving DecidableEq

structure Ctx where
  current : StateTag
  post_sep : StateTag
  b : Nat
  n : Nat
  method_vec : List Nat
  target_vec : List Nat
  version_vec : List Nat
  header_name : List Nat
  header_value_index : Nat
  headers : List (List Nat × Nat × Nat)
  body : Nat
  search_header_name : Option (List Nat)
  suspend : Bool
  finish : Bool
  err : Bool

def Ctx.new : Ctx :=
  { current := StateTag.methodFirst, post_sep := StateTag.methodFirst, b := 0, n := 0,
    method_vec := [], target_vec := [], version_vec := [], header_name := [],
    header_value_index := 0, headers := [], body := 0, search_header_name := none,
    suspend := false, finish := false, err := false }

def spaceFn (c : Ctx) : Ctx :=
  if c.b = SPACE then { c with current := c.post_sep } else { c with err := true }

def crFn (c : Ctx) : Ctx :=
  if c.b = CR then { c with current := StateTag.lf } else { c with err := true }

def lfFn (c : Ctx) : Ctx :=
  if c.b = LF then { c with current := c.post_sep }
  else if c.b = CR then { c with err := true }
  else { c with current := StateTag.cr, err := true }

def colonFn (c : Ctx) : Ctx :=
  if c.b = COLON then { c with current := c.post_sep } else { c with err := true }

def bodyFirstFn (c : Ctx) : Ctx :=
  { c with body := c.n, finish := true, current := StateTag.bodyTail }

def bodyTailFn (c : Ctx) : Ctx := c

def headerValueTailFn (c : Ctx) : Ctx :=
  if is_crlf c.b then
    let name := c.header_name
    let susp :=
      match c.search_header_name with
      | some s => if s = name then true else c.suspend
      | none => c.suspend
    crFn { c with
      header_name := []
      suspend := susp
      headers := c.headers ++ [(name, c.header_value_index, c.n)]
      post_sep := StateTag.headerNameFirst
      current := StateTag.cr }
  else c

def headerValueFirstFn (c : Ctx) : Ctx :=
  let c2 := { c with header_value_index := c.n, current := StateTag.headerValueTail }
  if is_crlf c2.b then headerValueTailFn c2 else c2

def headerNameFirstFn (c : Ctx) : Ctx :=
  if isAlpha c.b then
    { c with header_name := c.header_name ++ [c.b], current := StateTag.headerNameTail }
  else if c.b = CR then
    crFn { c with post_sep := StateTag.bodyFirst, current := StateTag.cr }
  else { c with err := true }

def headerNameTailFn (c : Ctx) : Ctx :=
  if isAlnum c.b ∨ c.b = HYPHEN then { c with header_name := c.header_name ++ [c.b] }
  else colonFn { c with post_sep := StateTag.headerValueFirst, current := StateTag.colon }

def methodFirstFn (c : Ctx) : Ctx :=
  if isAlpha c.b then
    { c with method_vec := c.method_vec ++ [c.b], current := StateTag.methodTail }
  else { c with err := true }

def methodTailFn (c : Ctx) : Ctx :=
  if isAlpha c.b then { c with method_vec := c.method_vec ++ [c.b] }
  else spaceFn { c with post_sep := StateTag.targetFirst, current := StateTag.space }

def targetFirstFn (c : Ctx) : Ctx :=
  if isGraphic c.b then
    { c with target_vec := c.target_vec ++ [c.b], current := StateTag.targetTail }
  else { c with err := true }

def targetTailFn (c : Ctx) : Ctx :=
  if isGraphic c.b then { c with target_vec := c.target_vec ++ [c.b] }
  else spaceFn { c with post_sep := StateTag.versionFirst, current := StateTag.space }

def versionFirstFn (c : Ctx) : Ctx :=
  if isAlnum c.b then
    { c with version_vec := c.version_vec ++ [c.b], current := StateTag.versionTail }
  else { c with err := true }

def versionTailFn (c : Ctx) : Ctx :=
  if isAlnum c.b ∨ c.b = DOT then { c with version_vec := c.version_vec ++ [c.b] }
  else
    let c2 := crFn { c with post_sep := StateTag.headerNameFirst, current := StateTag.cr }
    { c2 with suspend := true }

def runTag : StateTag → Ctx → Ctx
  | StateTag.methodFirst => methodFirstFn
  | StateTag.methodTail => methodTailFn
  | StateTag.space => spaceFn
  | StateTag.cr => crFn
  | StateTag.lf => lfFn
  | StateTag.targetFirst => targetFirstFn
  | StateTag.targetTail => targetTailFn
  | StateTag.versionFirst => versionFirstFn
  | StateTag.versionTail => versionTailFn
  | StateTag.headerNameFirst => headerNameFirstFn
  | StateTag.headerNameTail => headerNameTailFn
  | StateTag.colon => colonFn
  | StateTag.headerValueFirst => headerValueFirstFn
  | StateTag.headerValueTail => headerValueTailFn
  | StateTag.bodyFirst => bodyFirstFn
  | StateTag.bodyTail => bodyTailFn

def accept (c : Ctx) (b : Nat) : Ctx :=
  let c2 := runTag c.current { c with b := b }
  { c2 with n := c2.n + 1 }

def acceptLoop : List Nat → Ctx → Ctx
  | [], c => c
  | b :: rest, c =>
    let c2 := accept c b
    if c2.suspend then c2 else acceptLoop rest c2

def accept_context (c : Ctx) (buf : List Nat) : Ctx := acceptLoop (buf.drop c.n) c

def assocGet (m : List (List Nat × (Nat × Nat))) (k : List Nat) : Option (Nat × Nat) :=
  (m.find? (fun e => e.1 = k)).map Prod.snd

def assocPut (m : List (List Nat × (Nat × Nat))) (k : List Nat) (v : Nat × Nat) :
    List (List Nat × (Nat × Nat)) :=
  if (m.find? (fun e => e.1 = k)).isSome then
    m.map (fun e => if e.1 = k then (k, v) else e)
  else m ++ [(k, v)]

structure RequestUnits where
  method : List Nat
  target : List Nat
  version : List Nat
  headers : List (List Nat × (Nat × Nat))
  body : Nat
  err : Bool
  build_context : Option Ctx

def RequestUnits.new : RequestUnits :=
  { method := [], target := [], version := [], headers := [], body := 0, err := false,
    build_context := some Ctx.new }

def from_context (u : RequestUnits) (c : Ctx) (buf : List Nat) : RequestUnits × Ctx :=
  let u1 := { u with
    method := if u.method.isEmpty then c.method_vec else u.method
    target := if u.target.isEmpty then c.target_vec else u.target
    version := if u.version.isEmpty then c.version_vec else u.version }
  let c1 := { c with
    method_vec := if u.method.isEmpty then [] else c.method_vec
    target_vec := if u.target.isEmpty then [] else c.target_vec
    version_vec := if u.version.isEmpty then [] else c.version_vec
    headers := [] }
  let hs := c.headers.foldl
    (fun m h => assocPut m h.1 (trim_whitespace buf h.2.1 h.2.2)) u1.headers
  ({ u1 with headers := hs, body := c.body, err := c.err }, c1)

def RequestUnits.build (u : RequestUnits) (buf : List Nat) : RequestUnits :=
  match u.build_context with
  | none => u
  | some c0 =>
    let c1 := accept_context c0 buf
    let r := from_context { u with build_context := none } c1 buf
    let c2 := { r.2 with search_header_name := none }
    if c2.suspend then
      let c3 := { c2 with suspend := false }
      if ¬ c3.finish then { r.1 with build_context := some c3 } else r.1
    else r.1

def RequestUnits.header_value_index (u : RequestUnits) (name : List Nat) (buf : List Nat) :
    RequestUnits × Option (Nat × Nat) :=
  let u1 :=
    if (assocGet u.headers name).isSome then u
    else
      match u.build_context with
      | some c =>
        RequestUnits.build { u with build_context := some { c with search_header_name := some name } } buf
      | none => u
  (u1, assocGet u1.headers name)

def new_request_units (bytes : List Nat) : RequestUnits :=
  RequestUnits.new.build bytes

def strBytes7 (s : String) : List Nat := s.data.map Char.toNat

def c7input : List Nat :=
  [71, 69, 84, 32, 47, 32, 72, 84, 84, 80, 47, 49, 46, 49, 13, 10, 65, 99, 99, 101, 112, 116,
   58, 32, 116, 101, 120, 116, 47, 42, 44, 32, 116, 101, 120, 116, 47, 112, 108, 97, 105, 110,
   44, 32, 116, 101, 120, 116, 47, 112, 108, 97, 105, 110, 59, 102, 111, 114, 109, 97, 116,
   61, 102, 108, 111, 119, 101, 100, 44, 32, 42, 47, 42, 13, 10, 13, 10]

end Request

namespace HuffTable

open Huffman

def codePre (a b : Nat × Nat) : Prop :=
  a.2 ≤ b.2 ∧ b.1 >>> (b.2 - a.2) = a.1

instance : DecidableRel codePre := fun a b => by unfold codePre; infer_instance

end HuffTable

namespace HuffCorrect

open Huffman HuffTable

def runBits (st : List Bool) : List Bool → List Nat × List Bool
  | [] => ([], st)
  | b :: rest =>
    let st1 := st ++ [b]
    match findCode st1 with
    | some i =>
      let r := runBits (st1.drop (hcode i).2) rest
      (i :: r.1, r.2)
    | none => runBits st1 rest

def clean (st : List Bool) : Prop := ∀ i < 257, st.take (hcode i).2 ≠ hbits i

def codeBits : List Nat → List Bool
  | [] => []
  | c :: t => hbits c ++ codeBits t

def bitsOfBytes : List Nat → List Bool
  | [] => []
  | b :: t => natBits b 8 ++ bitsOfBytes t

def chunks8 (l : List Bool) : List (List Bool) :=
  if h : 8 ≤ l.length then l.take 8 :: chunks8 (l.drop 8) else []
termination_by l.length
decreasing_by
  simp only [List.length_drop]
  omega

def rem8 (l : List Bool) : List Bool :=
  if h : 8 ≤ l.length then rem8 (l.drop 8) else l
termination_by l.length
decreasing_by
  simp only [List.length_drop]
  omega

def pack (l : List Bool) : List Nat :=
  if h : 8 ≤ l.length then bitsVal (l.take 8) :: pack (l.drop 8)
  else if l.isEmpty then [] else [bitsVal (l ++ List.replicate (8 - l.length) true)]
termination_by l.length
decreasing_by
  simp only [List.length_drop]
  omega

end HuffCorrect

namespace Httpe

theorem or_mod_two_pow (a b w : Nat) : (a ||| b) % 2 ^ w = (a % 2 ^ w) ||| (b % 2 ^ w) := by
  apply Nat.eq_of_testBit_eq
  intro i
  simp only [Nat.testBit_mod_two_pow, Nat.testBit_or]
  cases h : decide (i < w) <;> simp

theorem or_shiftRight (a b k : Nat) : (a ||| b) >>> k = (a >>> k) ||| (b >>> k) := by
  apply Nat.eq_of_testBit_eq
  intro i
  simp [Nat.testBit_or]

theorem or_disj_eq_add (k : Nat) : ∀ a b : Nat, a % 2 ^ k = 0 → b < 2 ^ k → a ||| b = a + b := by
  induction k with
  | zero => intro a b _ hb; interval_cases b; simp
  | succ k ih =>
    intro a b ha hb
    have ha2 : a % 2 = 0 := by
      have : (2 : Nat) ∣ a :=
        dvd_trans (dvd_pow_self 2 (Nat.succ_ne_zero k)) (Nat.dvd_of_mod_eq_zero ha)
      omega
    have h1 : a = 2 * (a / 2) := by omega
    have h2 : b = 2 * (b / 2) + b % 2 := by omega
    have hda : (a / 2) % 2 ^ k = 0 := by
      have hdvd : 2 * 2 ^ k ∣ a := by
        apply Nat.dvd_of_mod_eq_zero
        rw [← pow_succ']; exact ha
      obtain ⟨q, hq⟩ := hdvd
      have : a / 2 = 2 ^ k * q := by
        rw [hq, Nat.mul_assoc, Nat.mul_div_cancel_left _ (by omega)]
      rw [this]
      exact Nat.mul_mod_right _ _
    have hdb : b / 2 < 2 ^ k := by
      rw [pow_succ'] at hb
      omega
    have key : a ||| b = 2 * ((a / 2) ||| (b / 2)) + (b % 2) := by
      have hbit : Nat.bit (decide (b % 2 = 1)) (b / 2) = b := by
        rw [Nat.bit_val]
        rcases Nat.mod_two_eq_zero_or_one b with h | h <;> simp [h] <;> omega
      have habit : Nat.bit false (a / 2) = a := by
        rw [Nat.bit_val]
        simp
        omega
      conv_lhs => rw [← habit, ← hbit]
      rw [Nat.lor_bit, Nat.bit_val]
      rcases Nat.mod_two_eq_zero_or_one b with h | h <;> simp [h]
    rw [key, ih _ _ hda hdb]
    omega

-- decode_integer of encChunks

theorem decode_integer_go_encChunks (r : Nat) :
    ∀ n m, decode_integer_go n m (encChunks r) = (n + r * 2 ^ m, []) := by
  induction r using Nat.strong_induction_on with
  | _ r ih =>
    intro n m
    rw [encChunks]
    by_cases h : r < 128
    · simp only [if_pos h, decode_integer_go]
      have h1 : r &&& 0x7f = r := by
        have : r &&& 2 ^ 7 - 1 = r % 2 ^ 7 := Nat.and_pow_two_sub_one_eq_mod r 7
        simpa [Nat.mod_eq_of_lt h] using this
      have h2 : r &&& 0x80 = 0 := by
        apply Nat.eq_of_testBit_eq
        intro i
        simp only [Nat.testBit_and, Nat.zero_testBit]
        rcases Nat.lt_or_ge i 7 with hi | hi
        · have : (0x80 : Nat).testBit i = false := by
            interval_cases i <;> decide
          simp [this]
        · have : r.testBit i = false := by
            apply Nat.testBit_lt_two_pow
            calc r < 128 := h
            _ ≤ 2 ^ i := by
                calc (128 : Nat) = 2 ^ 7 := by norm_num
                _ ≤ 2 ^ i := Nat.pow_le_pow_right (by omega) hi
          simp [this]
      simp [h1, h2, Nat.shiftLeft_eq]
    · simp only [if_neg h, decode_integer_go]
      have hb : r % 128 + 128 < 256 := by omega
      have h1 : (r % 128 + 128) &&& 0x7f = r % 128 := by
        have : (r % 128 + 128) &&& 2 ^ 7 - 1 = (r % 128 + 128) % 2 ^ 7 :=
          Nat.and_pow_two_sub_one_eq_mod _ 7
        have h2 : (r % 128 + 128) % 2 ^ 7 = r % 128 := by
          show (r % 128 + 128) % 128 = r % 128
          omega
        simpa [h2] using this
      have h2 : (r % 128 + 128) &&& 0x80 = 0x80 := by
        have hd : r % 128 + 128 = 0x80 ||| (r % 128) := by
          rw [Httpe.or_disj_eq_add 7 0x80 (r % 128) (by norm_num) (by omega)]
          omega
        rw [hd]
        apply Nat.eq_of_testBit_eq
        intro i
        simp only [Nat.testBit_and, Nat.testBit_or]
        rcases Nat.lt_or_ge i 7 with hi | hi
        · have h80 : (0x80 : Nat).testBit i = false := by interval_cases i <;> decide
          simp [h80]
        · have : (r % 128).testBit i = false := by
            apply Nat.testBit_lt_two_pow
            calc r % 128 < 128 := Nat.mod_lt _ (by omega)
            _ ≤ 2 ^ i := by
                calc (128 : Nat) = 2 ^ 7 := by norm_num
                _ ≤ 2 ^ i := Nat.pow_le_pow_right (by omega) hi
          simp [this]
      have hne : ¬ ((r % 128 + 128) &&& 0x80 = 0) := by rw [h2]; norm_num
      simp only [if_neg hne]
      rw [ih (r / 128) (Nat.div_lt_self (by omega) (by omega))]
      have hr : 128 * (r / 128) + r % 128 = r := by omega
      have harith : n + (r % 128 + 128 &&& 127) * 1 <<< m + r / 128 * 2 ^ (m + 7) =
          n + r * 2 ^ m := by
        rw [h1, Nat.shiftLeft_eq, pow_add]
        calc n + r % 128 * (1 * 2 ^ m) + r / 128 * (2 ^ m * 2 ^ 7)
            = n + (128 * (r / 128) + r % 128) * 2 ^ m := by ring
          _ = n + r * 2 ^ m := by rw [hr]
      rw [harith]

end Httpe

namespace Prty

open Httpe

theorem one_shl (w : Nat) : (1 : Nat) <<< w = 2 ^ w := by
  rw [Nat.shiftLeft_eq]; ring

theorem and127_of_lt {r : Nat} (h : r < 128) : r &&& 0x7f = r := by
  have := Nat.and_pow_two_sub_one_eq_mod r 7
  simpa [Nat.mod_eq_of_lt h] using this

theorem and128_of_lt {r : Nat} (h : r < 128) : r &&& 0x80 = 0 := by
  apply Nat.eq_of_testBit_eq
  intro i
  simp only [Nat.testBit_and, Nat.zero_testBit]
  rcases Nat.lt_or_ge i 7 with hi | hi
  · have h80 : (0x80 : Nat).testBit i = false := by interval_cases i <;> decide
    simp [h80]
  · have hr : r.testBit i = false := by
      apply Nat.testBit_lt_two_pow
      calc r < 128 := h
        _ ≤ 2 ^ i := by
          calc (128 : Nat) = 2 ^ 7 := by norm_num
            _ ≤ 2 ^ i := Nat.pow_le_pow_right (by omega) hi
    simp [hr]

theorem and127_hi (r : Nat) : (r % 128 + 128) &&& 0x7f = r % 128 := by
  have h := Nat.and_pow_two_sub_one_eq_mod (r % 128 + 128) 7
  have h2 : (r % 128 + 128) % 2 ^ 7 = r % 128 := by
    show (r % 128 + 128) % 128 = r % 128
    omega
  simpa [h2] using h

theorem and128_hi (r : Nat) : (r % 128 + 128) &&& 0x80 = 0x80 := by
  have hd : r % 128 + 128 = 0x80 ||| (r % 128) := by
    rw [Httpe.or_disj_eq_add 7 0x80 (r % 128) (by norm_num) (by omega)]
    omega
  rw [hd]
  apply Nat.eq_of_testBit_eq
  intro i
  simp only [Nat.testBit_and, Nat.testBit_or]
  rcases Nat.lt_or_ge i 7 with hi | hi
  · have h80 : (0x80 : Nat).testBit i = false := by interval_cases i <;> decide
    simp [h80]
  · have hr : (r % 128).testBit i = false := by
      apply Nat.testBit_lt_two_pow
      calc r % 128 < 128 := Nat.mod_lt _ (by omega)
        _ ≤ 2 ^ i := by
          calc (128 : Nat) = 2 ^ 7 := by norm_num
            _ ≤ 2 ^ i := Nat.pow_le_pow_right (by omega) hi
    simp [hr]

theorem encChunks_foldr (r : Nat) :
    (encChunks r).foldr (fun b acc => (b &&& 0x7f) + 128 * acc) 0 = r := by
  induction r using Nat.strong_induction_on with
  | _ r ih =>
    rw [encChunks]
    by_cases h : r < 128
    · simp only [if_pos h, List.foldr_cons, List.foldr_nil]
      rw [and127_of_lt h]
      omega
    · simp only [if_neg h, List.foldr_cons]
      rw [ih (r / 128) (Nat.div_lt_self (by omega) (by omega)), and127_hi]
      omega

theorem encChunks_shape (r : Nat) :
    ∃ ds d, encChunks r = ds ++ [d] ∧ (∀ b ∈ ds, b &&& 0x80 = 0x80) ∧ d &&& 0x80 = 0 := by
  induction r using Nat.strong_induction_on with
  | _ r ih =>
    rw [encChunks]
    by_cases h : r < 128
    · exact ⟨[], r, by simp [h], by simp, and128_of_lt h⟩
    · obtain ⟨ds, d, he, hds, hd⟩ := ih (r / 128) (Nat.div_lt_self (by omega) (by omega))
      refine ⟨(r % 128 + 128) :: ds, d, by simp [h, he], ?_, hd⟩
      intro b hb
      rcases List.mem_cons.mp hb with hb | hb
      · rw [hb]; exact and128_hi r
      · exact hds b hb

theorem mod256_mod_pow {x w : Nat} (hw : w ≤ 8) : x % 256 % 2 ^ w = x % 2 ^ w := by
  have : (2 : Nat) ^ w ∣ 256 := by
    have : (256 : Nat) = 2 ^ 8 := by norm_num
    rw [this]
    exact pow_dvd_pow 2 hw
  exact Nat.mod_mod_of_dvd x this

/-- Claim C2: for every integer `i`, prefix width `1 ≤ w ≤ 7` and prefix bits
`p` confined to the high `8 - w` bits, `encode_integer i w p` writes one byte
`i ||| p` when `i < 2^w - 1`, and otherwise `(2^w - 1) ||| p` followed by
base-128 continuation chunks of `i - (2^w - 1)` with bit `0x80` set on all
but the last; reading the `w`-bit prefixed integer back yields `i`. -/
theorem c2_main (i w p : Nat) (hw1 : 1 ≤ w) (hw2 : w ≤ 7)
    (hp : p % 2 ^ w = 0) (hp256 : p < 256) :
    read_prefixed w (encode_integer i w p) = (i, []) ∧
    (i < 2 ^ w - 1 → encode_integer i w p = [i ||| p]) ∧
    (2 ^ w - 1 ≤ i → ∃ ds d,
      encode_integer i w p = (((2 ^ w - 1) ||| p) :: ds) ++ [d] ∧
      (∀ b ∈ ds, b &&& 0x80 = 0x80) ∧ d &&& 0x80 = 0 ∧
      (ds ++ [d]).foldr (fun b acc => (b &&& 0x7f) + 128 * acc) 0 = i - (2 ^ w - 1)) := by
  have hw8 : ¬ (w < 1 ∨ 8 ≤ w) := by omega
  have hlt : 2 ^ w - 1 < 2 ^ w := by
    have : 0 < 2 ^ w := Nat.pos_pow_of_pos w (by omega)
    omega
  have hwle : (2 : Nat) ^ w ≤ 2 ^ 7 := Nat.pow_le_pow_right (by omega) hw2
  have hor : ∀ x : Nat, x < 2 ^ w → ((x % 256) ||| p) % 2 ^ w = x := by
    intro x hx
    rw [Httpe.or_mod_two_pow, mod256_mod_pow (by omega), hp, Nat.or_zero, Nat.mod_eq_of_lt hx]
  refine ⟨?_, ?_, ?_⟩
  · -- round trip
    rw [encode_integer]
    simp only [if_neg hw8, one_shl]
    by_cases hi : i < 2 ^ w - 1
    · simp only [if_pos hi, read_prefixed, one_shl]
      rw [hor i (by omega)]
      simp [Nat.ne_of_lt hi]
    · simp only [if_neg hi, read_prefixed, one_shl]
      rw [hor (2 ^ w - 1) hlt]
      simp only [if_pos rfl, decode_integer]
      rw [decode_integer_go_encChunks]
      simp
      omega
  · intro hi
    rw [encode_integer]
    simp only [if_neg hw8, one_shl, if_pos hi]
    have : i % 256 = i := Nat.mod_eq_of_lt (by
      have : (2:Nat) ^ w ≤ 256 := by
        calc (2:Nat) ^ w ≤ 2 ^ 7 := hwle
          _ ≤ 256 := by norm_num
      omega)
    rw [this]
  · intro hi
    obtain ⟨ds, d, he, hds, hd⟩ := encChunks_shape (i - (2 ^ w - 1))
    refine ⟨ds, d, ?_, hds, hd, ?_⟩
    · rw [encode_integer]
      simp only [if_neg hw8, one_shl, if_neg (by omega : ¬ i < 2 ^ w - 1)]
      have : (2 ^ w - 1) % 256 = 2 ^ w - 1 := Nat.mod_eq_of_lt (by
        have : (2:Nat) ^ w ≤ 256 := by
          calc (2:Nat) ^ w ≤ 2 ^ 7 := hwle
            _ ≤ 256 := by norm_num
        omega)
      rw [this, he]
      simp
    · rw [← he, encChunks_foldr]

theorem c2_witness :
    1 ≤ 5 ∧ 5 ≤ 7 ∧ (0x20 : Nat) % 2 ^ 5 = 0 ∧ (0x20 : Nat) < 256 ∧
    read_prefixed 5 (encode_integer 1337 5 0x20) = (1337, []) := by
  refine ⟨by decide, by decide, by decide, by decide, ?_⟩
  exact (c2_main 1337 5 0x20 (by decide) (by decide) (by decide) (by decide)).1

end Prty

namespace H3Prty

open Httpe Prty

theorem beBytes_length (i : Nat) : ∀ k, (beBytes i k).length = k := by
  intro k
  induction k with
  | zero => simp [beBytes]
  | succ k ih => simp [beBytes, ih]

theorem decode_var_go_beBytes (i : Nat) :
    ∀ k v rest, decode_var_go v k (beBytes i k ++ rest) =
      (v * 2 ^ (8 * k) + i % 2 ^ (8 * k), rest) := by
  intro k
  induction k with
  | zero => intro v rest; simp [beBytes, decode_var_go, Nat.mod_one]
  | succ k ih =>
    intro v rest
    simp only [beBytes, List.cons_append, decode_var_go, List.append_eq]
    rw [ih]
    have hor : (v <<< 8) ||| ((i >>> (8 * k)) % 256) = v * 256 + (i >>> (8 * k)) % 256 := by
      rw [Nat.shiftLeft_eq]
      exact Httpe.or_disj_eq_add 8 (v * 2 ^ 8) _ (Nat.mul_mod_left _ _) (Nat.mod_lt _ (by omega))
    rw [hor]
    have hsplit : i % 2 ^ (8 * (k + 1)) =
        i % 2 ^ (8 * k) + 2 ^ (8 * k) * (i / 2 ^ (8 * k) % 256) := by
      have h1 : (2 : Nat) ^ (8 * (k + 1)) = 2 ^ (8 * k) * 256 := by
        rw [Nat.mul_succ, pow_add]; norm_num
      rw [h1, Nat.mod_mul]
    have hsr : i >>> (8 * k) = i / 2 ^ (8 * k) := Nat.shiftRight_eq_div_pow i _
    simp only [Prod.mk.injEq, and_true]
    rw [hsplit, hsr]
    ring

/-- Claim C3: for every `i ≤ 2^62 - 1`, `decode_var` applied to the bytes
written by `encode_u64 i` returns `i`, `encode_u64` chooses the minimal
RFC 9000 length (1 byte for `i ≤ 63`, 2 for `i ≤ 16383`, 4 for
`i ≤ 2^30 - 1`, 8 otherwise), and the two high bits of the first byte encode
that length. -/
theorem c3_main (i : Nat) (hi : i ≤ 2 ^ 62 - 1) :
    decode_var (u64_to_var i) = (i, []) ∧
    (u64_to_var i).length =
      (if i ≤ 63 then 1 else if i ≤ 16383 then 2 else if i ≤ 2 ^ 30 - 1 then 4 else 8) ∧
    (∃ h t, u64_to_var i = h :: t ∧ 1 <<< (h >>> 6) = (u64_to_var i).length) := by
  rcases Nat.lt_or_ge i 64 with h0 | h0
  · -- one byte
    have he : u64_to_var i = [i] := by
      have : (i % 256) &&& 0x3f = i := by
        rw [Nat.mod_eq_of_lt (by omega)]
        have := Nat.and_pow_two_sub_one_eq_mod i 6
        simpa [Nat.mod_eq_of_lt h0] using this
      simp only [u64_to_var, encode_u64, if_pos (show i ≤ 63 by omega), encode_var, this]
    rw [he]
    have hp : i >>> 6 = 0 := by
      rw [Nat.shiftRight_eq_div_pow]
      omega
    have hand : i &&& 0x3f = i := by
      have := Nat.and_pow_two_sub_one_eq_mod i 6
      simpa [Nat.mod_eq_of_lt h0] using this
    refine ⟨?_, by simp [show i ≤ 63 by omega], i, [], rfl, by simp [hp]⟩
    simp [decode_var, hp, hand, decode_var_go]
  · rcases Nat.lt_or_ge i 16384 with h1 | h1
    · -- two bytes
      have hx : i >>> 8 < 64 := by
        rw [Nat.shiftRight_eq_div_pow]
        omega
      have hhdr : (((i >>> 8) % 256) &&& 0x3f) ||| 0x40 = 64 + i >>> 8 := by
        rw [Nat.mod_eq_of_lt (by omega)]
        have hand : (i >>> 8) &&& 0x3f = i >>> 8 := by
          have := Nat.and_pow_two_sub_one_eq_mod (i >>> 8) 6
          simpa [Nat.mod_eq_of_lt hx] using this
        rw [hand, Nat.lor_comm]
        exact Httpe.or_disj_eq_add 6 0x40 _ (by norm_num) hx
      have he : u64_to_var i = (64 + i >>> 8) :: beBytes i 1 := by
        simp only [u64_to_var, encode_u64, if_neg (by omega : ¬ i ≤ 63),
          if_pos (by omega : i ≤ 16383), encode_var, hhdr, beBytes]
        norm_num
      rw [he]
      have hp : (64 + i >>> 8) >>> 6 = 1 := by
        rw [Nat.shiftRight_eq_div_pow]
        have : (2 : Nat) ^ 6 = 64 := by norm_num
        rw [this]
        omega
      have hand : (64 + i >>> 8) &&& 0x3f = i >>> 8 := by
        have := Nat.and_pow_two_sub_one_eq_mod (64 + i >>> 8) 6
        have h2 : (64 + i >>> 8) % 2 ^ 6 = i >>> 8 := by
          have : (2 : Nat) ^ 6 = 64 := by norm_num
          rw [this]
          omega
        rw [h2] at this
        exact this
      refine ⟨?_, by simp [beBytes_length, show ¬ i ≤ 63 by omega, show i ≤ 16383 by omega], _,
        _, rfl, by simp [hp, beBytes_length]⟩
      simp only [decode_var, hp, hand]
      have : (1 <<< 1) - 1 = 1 := by decide
      rw [this, show (beBytes i 1 : List Nat) = beBytes i 1 ++ [] by simp,
        decode_var_go_beBytes]
      have hsr : i >>> 8 = i / 2 ^ 8 := Nat.shiftRight_eq_div_pow i 8
      simp only [Prod.mk.injEq, and_true]
      rw [hsr]
      have h8 : (2 : Nat) ^ (8 * 1) = 2 ^ 8 := by norm_num
      rw [h8]
      omega
    · rcases Nat.lt_or_ge i 1073741824 with h2 | h2
      · -- four bytes
        have hx : i >>> 24 < 64 := by
          rw [Nat.shiftRight_eq_div_pow]
          have : (2 : Nat) ^ 24 = 16777216 := by norm_num
          rw [this]
          omega
        have hhdr : (((i >>> 24) % 256) &&& 0x3f) ||| 0x80 = 128 + i >>> 24 := by
          rw [Nat.mod_eq_of_lt (by omega)]
          have hand : (i >>> 24) &&& 0x3f = i >>> 24 := by
            have := Nat.and_pow_two_sub_one_eq_mod (i >>> 24) 6
            simpa [Nat.mod_eq_of_lt hx] using this
          rw [hand, Nat.lor_comm]
          exact Httpe.or_disj_eq_add 7 0x80 _ (by norm_num) (by omega)
        have he : u64_to_var i = (128 + i >>> 24) :: beBytes i 3 := by
          simp only [u64_to_var, encode_u64, if_neg (by omega : ¬ i ≤ 63),
            if_neg (by omega : ¬ i ≤ 16383), if_pos (by omega : i ≤ 1073741823), encode_var,
            hhdr, beBytes]
          norm_num
        rw [he]
        have hp : (128 + i >>> 24) >>> 6 = 2 := by
          rw [Nat.shiftRight_eq_div_pow]
          have : (2 : Nat) ^ 6 = 64 := by norm_num
          rw [this]
          omega
        have hand : (128 + i >>> 24) &&& 0x3f = i >>> 24 := by
          have := Nat.and_pow_two_sub_one_eq_mod (128 + i >>> 24) 6
          have h3 : (128 + i >>> 24) % 2 ^ 6 = i >>> 24 := by
            have : (2 : Nat) ^ 6 = 64 := by norm_num
            rw [this]
            omega
          rw [h3] at this
          exact this
        refine ⟨?_, by simp [beBytes_length, show ¬ i ≤ 63 by omega, show ¬ i ≤ 16383 by omega,
          show i ≤ 1073741823 by omega, show i ≤ 2 ^ 30 - 1 by omega], _, _, rfl,
          by simp [hp, beBytes_length]⟩
        simp only [decode_var, hp, hand]
        have hc : (1 <<< 2) - 1 = 3 := by decide
        rw [hc, show (beBytes i 3 : List Nat) = beBytes i 3 ++ [] by simp,
          decode_var_go_beBytes]
        have hsr : i >>> 24 = i / 2 ^ 24 := Nat.shiftRight_eq_div_pow i 24
        simp only [Prod.mk.injEq, and_true]
        rw [hsr]
        have h24 : (2 : Nat) ^ (8 * 3) = 2 ^ 24 := by norm_num
        rw [h24]
        omega
      · -- eight bytes
        have hx : i >>> 56 < 64 := by
          rw [Nat.shiftRight_eq_div_pow]
          have hpow : (2 : Nat) ^ 62 = 2 ^ 56 * 64 := by norm_num
          have : i < 2 ^ 56 * 64 := by
            rw [← hpow]
            have h62 : (0:Nat) < 2 ^ 62 := by positivity
            omega
          exact Nat.div_lt_of_lt_mul this
        have hhdr : ((i >>> 56) % 256) ||| 0xc0 = 192 + i >>> 56 := by
          rw [Nat.mod_eq_of_lt (by omega), Nat.lor_comm]
          exact Httpe.or_disj_eq_add 6 0xc0 _ (by norm_num) hx
        have he : u64_to_var i = (192 + i >>> 56) :: beBytes i 7 := by
          simp only [u64_to_var, encode_u64, if_neg (by omega : ¬ i ≤ 63),
            if_neg (by omega : ¬ i ≤ 16383), if_neg (by omega : ¬ i ≤ 1073741823),
            if_pos (by omega : i ≤ 4611686018427387903), encode_var, hhdr, beBytes]
          norm_num
        rw [he]
        have hp : (192 + i >>> 56) >>> 6 = 3 := by
          rw [Nat.shiftRight_eq_div_pow]
          have : (2 : Nat) ^ 6 = 64 := by norm_num
          rw [this]
          omega
        have hand : (192 + i >>> 56) &&& 0x3f = i >>> 56 := by
          have := Nat.and_pow_two_sub_one_eq_mod (192 + i >>> 56) 6
          have h3 : (192 + i >>> 56) % 2 ^ 6 = i >>> 56 := by
            have : (2 : Nat) ^ 6 = 64 := by norm_num
            rw [this]
            omega
          rw [h3] at this
          exact this
        refine ⟨?_, by simp [beBytes_length, show ¬ i ≤ 63 by omega, show ¬ i ≤ 16383 by omega,
          show ¬ i ≤ 1073741823 by omega, show ¬ i ≤ 2 ^ 30 - 1 by omega], _, _, rfl,
          by simp [hp, beBytes_length]⟩
        simp only [decode_var, hp, hand]
        have hc : (1 <<< 3) - 1 = 7 := by decide
        rw [hc, show (beBytes i 7 : List Nat) = beBytes i 7 ++ [] by simp,
          decode_var_go_beBytes]
        have hsr : i >>> 56 = i / 2 ^ 56 := Nat.shiftRight_eq_div_pow i 56
        simp only [Prod.mk.injEq, and_true]
        rw [hsr]
        have h56 : (2 : Nat) ^ (8 * 7) = 2 ^ 56 := by norm_num
        rw [h56]
        omega

theorem c3_witness :
    (1099511627776 : Nat) ≤ 2 ^ 62 - 1 ∧
    decode_var (u64_to_var 1099511627776) = (1099511627776, []) := by
  exact ⟨by norm_num, (c3_main 1099511627776 (by norm_num)).1⟩

end H3Prty

namespace Tables

theorem evictEntriesGo_le (cap : Nat) :
    ∀ (fuel : Nat) (es : List (List Nat × List Nat)), es.length ≤ fuel →
      tableSize (evictEntriesGo cap fuel es) ≤ cap := by
  intro fuel
  induction fuel with
  | zero =>
    intro es hl
    have : es = [] := List.length_eq_zero.mp (by omega)
    subst this
    simp [evictEntriesGo, tableSize]
  | succ fuel ih =>
    intro es hl
    rw [evictEntriesGo]
    by_cases h : tableSize es > cap
    · by_cases he : es.isEmpty
      · have hnil : es = [] := by simpa using he
        subst hnil
        simp [tableSize] at h
      · simp only [if_pos h, if_neg he]
        have hne : es ≠ [] := by simpa using he
        have hp : 0 < es.length := List.length_pos.mpr hne
        exact ih es.dropLast (by simp [List.length_dropLast]; omega)
    · rw [if_neg h]
      omega

theorem evictEntries_le (cap : Nat) (es : List (List Nat × List Nat)) :
    tableSize (evictEntries cap es) ≤ cap :=
  evictEntriesGo_le cap es.length es (Nat.le_refl _)

/-- Claim C4: after any single operation among `add`, `size_update` /
`set_capacity` and `eviction` on the HPACK `IndexingTables` or the QPACK
`DynamicTable`, the post-state satisfies `size() ≤ capacity`, where `size()`
sums `len(name) + len(value) + 32` over the entries. -/
theorem c4_main :
    (∀ (t : IndexingTables) (name value : List Nat),
      (t.add name value).size ≤ (t.add name value).capacity) ∧
    (∀ (t : IndexingTables) (n : Nat), (t.size_update n).size ≤ (t.size_update n).capacity) ∧
    (∀ t : IndexingTables, t.eviction.size ≤ t.eviction.capacity) ∧
    (∀ (t : DynamicTable) (name value : List Nat),
      (t.add name value).size ≤ (t.add name value).capacity) ∧
    (∀ (t : DynamicTable) (n : Nat), (t.set_capacity n).size ≤ (t.set_capacity n).capacity) ∧
    (∀ t : DynamicTable, t.eviction.size ≤ t.eviction.capacity) := by
  refine ⟨?_, ?_, ?_, ?_, ?_, ?_⟩ <;>
    intros <;>
    first
      | exact evictEntries_le _ _

end Tables

namespace Hpack

open Httpe Tables Huffman

/-- Claim C1: decoding the HPACK field block
`82 86 84 41 0f 77 77 77 2e 65 78 61 6d 70 6c 65 2e 63 6f 6d` with a fresh
`IndexingTables` of capacity 4096 through the `decode_u8` dispatch and the
`H2DecodeFieldsHelper` visitor emits exactly the four field lines
(:method, GET), (:scheme, http), (:path, /), (:authority, www.example.com)
in that order, and leaves the dynamic table with exactly the one entry
(:authority, www.example.com) and `size() = 57`. -/
theorem c1_main :
    (hpackDecode c31bytes ⟨⟨4096, []⟩, []⟩).output =
      [(strBytes ":method", strBytes "GET"), (strBytes ":scheme", strBytes "http"),
       (strBytes ":path", strBytes "/"), (strBytes ":authority", strBytes "www.example.com")] ∧
    (hpackDecode c31bytes ⟨⟨4096, []⟩, []⟩).tables.entries =
      [(strBytes ":authority", strBytes "www.example.com")] ∧
    (hpackDecode c31bytes ⟨⟨4096, []⟩, []⟩).tables.size = 57 := by
  refine ⟨by decide, by decide, by decide⟩

end Hpack

namespace Qpack

open Httpe

/-- Claim C5 (code bug): `FieldInstructions::prefix` calls
`encode_integer(ric, 8, 0)`, whose `w < 1 || w >= 8` guard writes nothing for
`w = 8`, so the Required Insert Count byte is missing: for
`required_insert_count = 1, s_bit = false, delta_base = 0` the encoded
section prefix is the single byte `0x00` and `FieldInstructions::decode`
cannot recover `(1, false, 0)` from it. -/
theorem c5_bug :
    fi_pre 1 false 0 = [0x00] ∧ fi_decode_pre (fi_pre 1 false 0) = none := by
  refine ⟨by decide, by decide⟩

end Qpack

namespace Reader

/-- Claim C10 (code bug): `fetch_u128` calls `fetch_all(16)` but then checks
`v.len() == 8`, so even with 16 remaining bytes it returns `None` (and with
fewer than 16 it also returns `None`), never the big-endian 128-bit value. -/
theorem c10_bug :
    (List.range 16).length = 16 ∧
    (fetch_u128 (List.range 16)).1 = none ∧
    (fetch_u128 (List.range 15)).1 = none := by
  refine ⟨by decide, by decide, by decide⟩

end Reader

namespace Frame

set_option maxRecDepth 100000 in
/-- Claim C6 (counterexample): the DATA frame built with stream 1,
END_STREAM, PADDED, pad-length 100 and 1000 data bytes of 0x01 does not
encode to 1109 bytes: the frame is 9 (header) + 1 (pad-length byte) + 1000
(data) + 100 (padding) = 1110 bytes long. -/
theorem c6_counterexample : (DataEncoder.encode c6enc).length ≠ 1109 := by decide

set_option maxRecDepth 100000 in
/-- Claim C6 (amended): the same DATA frame encodes to 1110 bytes, and
`FrameDecoder::decode` on the produced bytes yields a `DataDecoder` with
`padded = true`, `end_stream = true`, `pad_length = 100`,
`stream_identifier = 1`, no errors, and `data()` of length exactly 1000
(the pad-length byte and the 100 padding bytes stripped). -/
theorem c6_amended :
    (DataEncoder.encode c6enc).length = 1110 ∧
    ((FrameDecoder_decode (DataEncoder.encode c6enc)).dataDec.map (fun d =>
        (d.padded, d.end_stream, d.pad_length, d.stream_identifier,
         d.data_slice.map List.length, decide (d.err = []))) =
      some (true, true, 100, 1, some 1000, true)) := by
  refine ⟨by decide, by rfl⟩

end Frame

namespace Assist

open Httpe Frame

/-- Claim C9 (code bug): `H2EncodeFieldsHelper` never sets END_HEADERS — for
the field sequence consisting of one indexed field followed by `flush()`,
the single emitted HEADERS frame has flags byte `0x00`, so no frame of the
sequence carries the END_HEADERS (0x04) flag, contradicting the invariant
that the last frame carries it. -/
theorem c9_bug :
    c9run.output = [[0x00, 0x00, 0x01, 0x01, 0x00, 0x00, 0x00, 0x00, 0x01, 0x82]] ∧
    (c9run.output.map (fun f => f.getD 4 0 &&& 0x04)) = [0] := by
  refine ⟨by decide, by decide⟩

end Assist

namespace Request

/-- Claim C7 (code bug): parsing
`"GET / HTTP/1.1\r\nAccept: text/*, ... */*\r\n\r\n"` yields
`method = "GET"` and `target = "/"` as the claim says, but
`version_tail` accepts only alphanumerics and `.`, so the `/` of `HTTP/1.1`
stops the version at `"HTTP"` and marks the context erroneous; the recorded
`Accept` value range still equals the ASCII text between `": "` and
`"\r\n"`. -/
theorem c7_bug :
    (new_request_units c7input).method = strBytes7 "GET" ∧
    (new_request_units c7input).target = strBytes7 "/" ∧
    (new_request_units c7input).version = strBytes7 "HTTP" ∧
    (new_request_units c7input).version ≠ strBytes7 "HTTP/1.1" ∧
    (new_request_units c7input).err = true ∧
    ((new_request_units c7input).header_value_index (strBytes7 "Accept") c7input).2 =
      some (24, 73) ∧
    (c7input.drop 24).take (73 - 24) =
      strBytes7 "text/*, text/plain, text/plain;format=flowed, */*" := by
  refine ⟨by decide, by decide, by decide, by decide, by decide, by decide, by decide⟩

end Request

namespace HuffTable

open Huffman

set_option maxRecDepth 100000 in
theorem tblF2 : ∀ i < 257, (hcode i).1 < 2 ^ (hcode i).2 := by decide

set_option maxRecDepth 100000 in
theorem tblF3 : ∀ i < 257, 5 ≤ (hcode i).2 ∧ (hcode i).2 ≤ 30 := by decide

set_option maxRecDepth 100000 in
theorem tblF4 : ∀ i < 257, ¬ ((hcode i).2 ≤ 7 ∧ (hcode i).1 = 2 ^ (hcode i).2 - 1) := by decide

set_option maxRecDepth 1000000 in
set_option maxHeartbeats 4000000 in
theorem tblPW : HUFFMAN_CODE.Pairwise (fun c d => ¬ codePre c d ∧ ¬ codePre d c) := by decide

set_option maxRecDepth 100000 in
theorem tblLen : HUFFMAN_CODE.length = 257 := by decide

theorem tblF1 : ∀ i < 257, ∀ j < 257, i ≠ j → ¬ codePre (hcode i) (hcode j) := by
  have key : ∀ i j, i < j → j < 257 → ¬ codePre (hcode i) (hcode j) ∧ ¬ codePre (hcode j) (hcode i) := by
    intro i j hij hj
    have hi' : i < HUFFMAN_CODE.length := by rw [tblLen]; omega
    have hj' : j < HUFFMAN_CODE.length := by rw [tblLen]; omega
    have := List.pairwise_iff_getElem.mp tblPW i j hi' hj' hij
    have hgi : hcode i = HUFFMAN_CODE[i] := by
      unfold hcode
      exact List.getD_eq_getElem _ _ hi'
    have hgj : hcode j = HUFFMAN_CODE[j] := by
      unfold hcode
      exact List.getD_eq_getElem _ _ hj'
    rw [hgi, hgj]
    exact this
  intro i hi j hj hne
  rcases Nat.lt_or_ge i j with h | h
  · exact (key i j h hj).1
  · have : j < i := by omega
    exact (key j i this hi).2

theorem tblOut : ∀ i, 257 ≤ i → hcode i = (0, 0) := by
  intro i hi
  have : HUFFMAN_CODE.length = 257 := by
    set_option maxRecDepth 100000 in decide
  unfold hcode
  rw [List.getD_eq_default]
  omega

end HuffTable

namespace Bits

open Huffman HuffTable

theorem natBits_length (v : Nat) : ∀ n, (natBits v n).length = n := by
  intro n
  induction n with
  | zero => simp [natBits]
  | succ n ih => simp [natBits, ih]

theorem bitsVal_go (l : List Bool) :
    ∀ a : Nat, l.foldl (fun x b => 2 * x + b.toNat) a = a * 2 ^ l.length + bitsVal l := by
  induction l with
  | nil => intro a; simp [bitsVal]
  | cons b t ih =>
    intro a
    simp only [List.foldl_cons, bitsVal, List.length_cons]
    rw [ih (2 * a + b.toNat), ih (2 * 0 + b.toNat)]
    ring

theorem bitsVal_cons (b : Bool) (t : List Bool) :
    bitsVal (b :: t) = b.toNat * 2 ^ t.length + bitsVal t := by
  simp only [bitsVal, List.foldl_cons]
  rw [bitsVal_go]
  simp [bitsVal]

theorem bitsVal_append (a b : List Bool) :
    bitsVal (a ++ b) = bitsVal a * 2 ^ b.length + bitsVal b := by
  simp only [bitsVal, List.foldl_append]
  rw [bitsVal_go b (a.foldl (fun x b => 2 * x + b.toNat) 0)]
  rfl

theorem bitsVal_lt (l : List Bool) : bitsVal l < 2 ^ l.length := by
  induction l with
  | nil => simp [bitsVal]
  | cons b t ih =>
    rw [bitsVal_cons]
    have : b.toNat ≤ 1 := Bool.toNat_le b
    have h2 : 2 ^ (b :: t).length = 2 ^ t.length + 2 ^ t.length := by
      simp [List.length_cons, pow_succ]
      ring
    simp only [List.length_cons]
    calc b.toNat * 2 ^ t.length + bitsVal t
        ≤ 1 * 2 ^ t.length + bitsVal t := by
          have := Nat.mul_le_mul_right (2 ^ t.length) this
          omega
      _ < 2 ^ t.length + 2 ^ t.length := by omega
      _ = 2 ^ (t.length + 1) := by rw [pow_succ]; ring

theorem toNat_testBit' (x i : Nat) : (x.testBit i).toNat = x / 2 ^ i % 2 :=
  Nat.toNat_testBit x i

theorem bitsVal_natBits (v : Nat) : ∀ n, bitsVal (natBits v n) = v % 2 ^ n := by
  intro n
  induction n with
  | zero => simp [natBits, bitsVal, Nat.mod_one]
  | succ n ih =>
    show bitsVal (v.testBit n :: natBits v n) = v % 2 ^ (n + 1)
    rw [bitsVal_cons, ih, natBits_length, toNat_testBit']
    have h1 : v % 2 ^ (n + 1) = v % (2 ^ n * 2) := by rw [pow_succ]
    rw [h1, Nat.mod_mul]
    ring

theorem natBits_congr_mod (v w : Nat) (hn : ∀ j, j < n → v.testBit j = w.testBit j) :
    natBits v n = natBits w n := by
  induction n with
  | zero => simp [natBits]
  | succ n ih =>
    show v.testBit n :: natBits v n = w.testBit n :: natBits w n
    rw [hn n (by omega), ih (fun j hj => hn j (by omega))]

theorem natBits_mod (v : Nat) (n : Nat) : natBits (v % 2 ^ n) n = natBits v n := by
  apply natBits_congr_mod
  intro j hj
  simp [Nat.testBit_mod_two_pow, hj]

theorem natBits_bitsVal : ∀ l : List Bool, natBits (bitsVal l) l.length = l := by
  intro l
  induction l with
  | nil => simp [natBits]
  | cons b t ih =>
    have hlt : bitsVal t < 2 ^ t.length := bitsVal_lt t
    have hval : bitsVal (b :: t) = b.toNat * 2 ^ t.length + bitsVal t := bitsVal_cons b t
    have h1 : (bitsVal (b :: t)).testBit t.length = b := by
      rw [hval, Nat.testBit_to_div_mod]
      have hdiv : (b.toNat * 2 ^ t.length + bitsVal t) / 2 ^ t.length = b.toNat := by
        rw [Nat.mul_comm b.toNat (2 ^ t.length),
          Nat.mul_add_div (Nat.pos_pow_of_pos _ (by omega)), Nat.div_eq_of_lt hlt]
        omega
      rw [hdiv]
      cases b <;> decide
    have h2 : natBits (bitsVal (b :: t)) t.length = t := by
      have hmod : bitsVal (b :: t) % 2 ^ t.length = bitsVal t := by
        rw [hval, Nat.mul_comm b.toNat (2 ^ t.length), Nat.mul_add_mod,
          Nat.mod_eq_of_lt hlt]
      calc natBits (bitsVal (b :: t)) t.length
          = natBits (bitsVal (b :: t) % 2 ^ t.length) t.length := (natBits_mod _ _).symm
        _ = natBits (bitsVal t) t.length := by rw [hmod]
        _ = t := ih
    show (bitsVal (b :: t)).testBit t.length :: natBits (bitsVal (b :: t)) t.length = b :: t
    rw [h1, h2]

theorem natBits_split (v : Nat) (a b : Nat) :
    natBits v (a + b) = natBits (v >>> b) a ++ natBits v b := by
  induction a with
  | zero => simp [natBits]
  | succ a ih =>
    have h1 : a + 1 + b = (a + b) + 1 := by omega
    rw [h1]
    show v.testBit (a + b) :: natBits v (a + b) = natBits (v >>> b) (a + 1) ++ natBits v b
    show _ = ((v >>> b).testBit a :: natBits (v >>> b) a) ++ natBits v b
    rw [Nat.testBit_shiftRight, ih, Nat.add_comm b a]
    rfl

theorem bitsVal_replicate_true : ∀ k, bitsVal (List.replicate k true) = 2 ^ k - 1 := by
  intro k
  induction k with
  | zero => simp [bitsVal]
  | succ k ih =>
    rw [List.replicate_succ, bitsVal_cons, ih, List.length_replicate]
    have : (0:Nat) < 2 ^ k := Nat.pos_pow_of_pos _ (by omega)
    simp only [Bool.toNat_true]
    rw [pow_succ]
    omega

theorem hbits_length (i : Nat) : (hbits i).length = (hcode i).2 := by
  unfold hbits
  exact natBits_length _ _

theorem bitsVal_hbits (i : Nat) (hi : i < 257) : bitsVal (hbits i) = (hcode i).1 := by
  unfold hbits
  rw [bitsVal_natBits, Nat.mod_eq_of_lt (tblF2 i hi)]

theorem natBits_take (v : Nat) : ∀ n k, k ≤ n →
    (natBits v n).take k = natBits (v >>> (n - k)) k := by
  intro n k hk
  have h1 : n = k + (n - k) := by omega
  rw [h1, natBits_split]
  rw [List.take_append_of_le_length (by rw [natBits_length])]
  simp [natBits_length]

end Bits

namespace HuffCorrect

open Huffman HuffTable Bits

theorem take_hbits_imp {i j : Nat} (hi : i < 257) (hj : j < 257)
    (h : (hbits j).take (hcode i).2 = hbits i) : codePre (hcode i) (hcode j) := by
  have hlenj : (hbits j).length = (hcode j).2 := hbits_length j
  have hleni : (hbits i).length = (hcode i).2 := hbits_length i
  have hle : (hcode i).2 ≤ (hcode j).2 := by
    have := congrArg List.length h
    simp only [List.length_take, hlenj, hleni] at this
    omega
  constructor
  · exact hle
  · have htake : (hbits j).take (hcode i).2 =
        natBits ((hcode j).1 >>> ((hcode j).2 - (hcode i).2)) (hcode i).2 := by
      unfold hbits
      exact natBits_take _ _ _ hle
    rw [htake] at h
    have hv := congrArg bitsVal h
    rw [bitsVal_natBits, bitsVal_hbits i hi] at hv
    have hb : (hcode j).1 >>> ((hcode j).2 - (hcode i).2) < 2 ^ (hcode i).2 := by
      rw [Nat.shiftRight_eq_div_pow]
      apply Nat.div_lt_of_lt_mul
      rw [← pow_add]
      have : (hcode j).2 - (hcode i).2 + (hcode i).2 = (hcode j).2 := by omega
      rw [this]
      exact tblF2 j hj
    rw [Nat.mod_eq_of_lt hb] at hv
    exact hv

theorem code_at_unique (l : List Bool) {i : Nat} (hi : i < 257)
    (h : l.take (hcode i).2 = hbits i) :
    ∀ j, j < 257 → l.take (hcode j).2 = hbits j → j = i := by
  intro j hj hpj
  by_contra hne
  rcases Nat.le_total (hcode i).2 (hcode j).2 with hle | hle2
  · have : (hbits j).take (hcode i).2 = hbits i := by
      rw [← hpj, List.take_take, Nat.min_eq_left hle, h]
    exact tblF1 i hi j hj (fun e => hne (e.symm)) (take_hbits_imp hi hj this)
  · have : (hbits i).take (hcode j).2 = hbits j := by
      rw [← h, List.take_take, Nat.min_eq_left hle2, hpj]
    exact tblF1 j hj i hi hne (take_hbits_imp hj hi this)

theorem findCode_none_iff (l : List Bool) :
    findCode l = none ↔ ∀ i, i < 257 → l.take (hcode i).2 ≠ hbits i := by
  unfold findCode
  rw [List.find?_eq_none]
  constructor
  · intro h i hi heq
    have := h i (List.mem_range.mpr hi)
    simp [heq] at this
  · intro h i hmem
    have hi := List.mem_range.mp hmem
    simp only [beq_iff_eq]
    exact h i hi

theorem findCode_some_spec {l : List Bool} {i : Nat} (h : findCode l = some i) :
    i < 257 ∧ l.take (hcode i).2 = hbits i := by
  unfold findCode at h
  have h1 := List.find?_some h
  have h2 := List.mem_of_find?_eq_some h
  simp only [beq_iff_eq] at h1
  exact ⟨List.mem_range.mp h2, h1⟩

theorem findCode_eq_some {l : List Bool} {i : Nat} (hi : i < 257)
    (hp : l.take (hcode i).2 = hbits i) : findCode l = some i := by
  cases h : findCode l with
  | none =>
    exact absurd hp ((findCode_none_iff l).mp h i hi)
  | some j =>
    obtain ⟨hj, hpj⟩ := findCode_some_spec h
    rw [code_at_unique l hi hp j hj hpj]

theorem clean_iff (st : List Bool) : clean st ↔ findCode st = none :=
  (findCode_none_iff st).symm

theorem clean_short (l : List Bool) (h : l.length < 5) : clean l := by
  intro i hi heq
  have h1 := congrArg List.length heq
  simp only [List.length_take, hbits_length] at h1
  have := (tblF3 i hi).1
  omega

theorem runBits_append (x : List Bool) :
    ∀ st y, runBits st (x ++ y) =
      ((runBits st x).1 ++ (runBits (runBits st x).2 y).1, (runBits (runBits st x).2 y).2) := by
  induction x with
  | nil => intro st y; simp [runBits]
  | cons b t ih =>
    intro st y
    simp only [List.cons_append, runBits]
    cases h : findCode (st ++ [b]) with
    | some i =>
      simp only [List.append_eq, ih]
      simp
    | none =>
      simp only [List.append_eq, ih]

theorem runBits_short : ∀ (bits st : List Bool), st.length + bits.length < 5 →
    runBits st bits = ([], st ++ bits) := by
  intro bits
  induction bits with
  | nil => intro st h; simp [runBits]
  | cons b t ih =>
    intro st h
    simp only [runBits]
    have hc : findCode (st ++ [b]) = none := by
      rw [← clean_iff]
      apply clean_short
      simp only [List.length_append, List.length_cons] at h ⊢
      simp
      omega
    rw [hc]
    simp only []
    rw [ih (st ++ [b]) (by simp at h ⊢; omega)]
    simp

theorem runNib (nib : List Bool) : ∀ st, clean st → nib.length ≤ 4 →
    (match findCode (st ++ nib) with
     | some i => runBits st nib = ([i], (st ++ nib).drop (hcode i).2) ∧
         clean ((st ++ nib).drop (hcode i).2)
     | none => runBits st nib = ([], st ++ nib) ∧ clean (st ++ nib)) := by
  induction nib with
  | nil =>
    intro st hclean _
    have hnone : findCode (st ++ []) = none := by
      rw [List.append_nil]
      exact (clean_iff st).mp hclean
    rw [hnone]
    simp [runBits, hclean]
  | cons b rest ih =>
    intro st hclean hlen
    have hassoc : st ++ b :: rest = (st ++ [b]) ++ rest := by simp
    cases fc1 : findCode (st ++ [b]) with
    | some i =>
      obtain ⟨hi, htake⟩ := findCode_some_spec fc1
      have hni : (hcode i).2 = (st ++ [b]).length := by
        have hlen2 := congrArg List.length htake
        simp only [List.length_take, hbits_length] at hlen2
        by_contra hne
        have hle : (hcode i).2 ≤ st.length := by
          simp only [List.length_append, List.length_cons, List.length_nil] at hlen2 hne ⊢
          simp at hlen2
          omega
        have : st.take (hcode i).2 = hbits i := by
          rw [← htake, List.take_append_of_le_length hle]
        exact hclean i hi this
      have hfull : hbits i = st ++ [b] := by
        rw [← htake, hni, List.take_length]
      have hrest3 : rest.length ≤ 3 := by
        simp only [List.length_cons] at hlen
        omega
      have hfc : findCode ((st ++ [b]) ++ rest) = some i := by
        apply findCode_eq_some hi
        rw [hni, List.take_left]
        exact hfull.symm
      rw [hassoc]
      simp only [hfc]
      have hdrop : ((st ++ [b]) ++ rest).drop (hcode i).2 = rest := by
        rw [hni, List.drop_left]
      rw [hdrop]
      constructor
      · show runBits st (b :: rest) = ([i], rest)
        simp only [runBits, fc1]
        have hdrop2 : (st ++ [b]).drop (hcode i).2 = [] := by
          rw [hni, List.drop_length]
        rw [hdrop2, runBits_short rest []
          (by simp only [List.length_nil, Nat.zero_add]; omega)]
        simp
      · exact clean_short rest (by omega)
    | none =>
      have hclean1 : clean (st ++ [b]) := (clean_iff _).mpr fc1
      have hlen1 : rest.length ≤ 4 := by
        simp only [List.length_cons] at hlen
        omega
      have := ih (st ++ [b]) hclean1 hlen1
      rw [hassoc]
      have hrb : runBits st (b :: rest) = runBits (st ++ [b]) rest := by
        simp only [runBits, fc1]
      cases fc2 : findCode ((st ++ [b]) ++ rest) with
      | some j =>
        simp only [fc2] at this ⊢
        exact ⟨by rw [hrb]; exact this.1, this.2⟩
      | none =>
        simp only [fc2] at this ⊢
        exact ⟨by rw [hrb]; exact this.1, this.2⟩

theorem clean_proper_code {c : Nat} (hc : c < 257) (k : Nat) (hk : k < (hcode c).2) :
    clean ((hbits c).take k) := by
  intro j hj htake
  have hlen2 := congrArg List.length htake
  simp only [List.length_take, hbits_length] at hlen2
  have hkc : k ≤ (hcode c).2 := by omega
  have hjk : (hcode j).2 ≤ k := by
    simp at hlen2
    omega
  have hpre : (hbits c).take (hcode j).2 = hbits j := by
    rw [← htake, List.take_take, Nat.min_eq_left hjk]
  have := take_hbits_imp hj hc hpre
  by_cases hne : j = c
  · subst hne
    omega
  · exact tblF1 j hj c hc hne this

theorem runBits_code {c : Nat} (hc : c < 257) :
    ∀ (l2 l1 : List Bool), l1 ++ l2 = hbits c → l2 ≠ [] → ∀ rest,
      runBits l1 (l2 ++ rest) = (c :: (runBits [] rest).1, (runBits [] rest).2) := by
  intro l2
  induction l2 with
  | nil => intro l1 _ hne; exact absurd rfl hne
  | cons b l2t ih =>
    intro l1 heq _ rest
    by_cases hnil : l2t = []
    · subst hnil
      have hfull : l1 ++ [b] = hbits c := by simpa using heq
      simp only [List.cons_append, runBits]
      have hfc : findCode (l1 ++ [b]) = some c := by
        apply findCode_eq_some hc
        rw [hfull, ← hbits_length c, List.take_length]
      simp only [hfc]
      have hdrop : (l1 ++ [b]).drop (hcode c).2 = [] := by
        rw [hfull, ← hbits_length c, List.drop_length]
      rw [hdrop]
      simp
    · simp only [List.cons_append, runBits]
      have hpre : l1 ++ [b] = (hbits c).take (l1.length + 1) := by
        rw [← heq, List.take_append]
        simp
      have hlt : l1.length + 1 < (hcode c).2 := by
        have := congrArg List.length heq
        simp only [List.length_append, List.length_cons, hbits_length] at this
        have hl2 : 0 < l2t.length := List.length_pos.mpr hnil
        omega
      have hfc : findCode (l1 ++ [b]) = none := by
        rw [← clean_iff]
        rw [hpre]
        exact clean_proper_code hc _ hlt
      simp only [hfc]
      exact ih (l1 ++ [b]) (by simpa using heq) hnil rest

theorem list_all_true_eq_replicate (l : List Bool) (h : ∀ b ∈ l, b = true) :
    l = List.replicate l.length true := by
  induction l with
  | nil => simp
  | cons b t ih =>
    simp only [List.length_cons, List.replicate_succ]
    rw [h b (by simp)]
    have ht := ih (fun x hx => h x (by simp [hx]))
    exact congrArg (true :: ·) ht

theorem clean_ones (l : List Bool) (h : ∀ b ∈ l, b = true) (hl : l.length ≤ 7) : clean l := by
  intro i hi htake
  have hlen2 := congrArg List.length htake
  simp only [List.length_take, hbits_length] at hlen2
  have hle : (hcode i).2 ≤ l.length := by simp at hlen2; omega
  have hones : hbits i = List.replicate (hcode i).2 true := by
    rw [← htake]
    have hsub : ∀ b ∈ l.take (hcode i).2, b = true := fun b hb => h b (List.mem_of_mem_take hb)
    have := list_all_true_eq_replicate _ hsub
    rw [this]
    congr 1
    simp
    omega
  have hv := congrArg bitsVal hones
  rw [bitsVal_hbits i hi, bitsVal_replicate_true] at hv
  exact tblF4 i hi ⟨by omega, hv⟩

theorem runBits_pad : ∀ (pad st : List Bool), (∀ b ∈ st, b = true) → (∀ b ∈ pad, b = true) →
    st.length + pad.length ≤ 7 → runBits st pad = ([], st ++ pad) := by
  intro pad
  induction pad with
  | nil => intro st _ _ _; simp [runBits]
  | cons b rest ih =>
    intro st hst hpad hlen
    simp only [runBits]
    have hst1 : ∀ x ∈ st ++ [b], x = true := by
      intro x hx
      rcases List.mem_append.mp hx with h | h
      · exact hst x h
      · simp at h
        rw [h]
        exact hpad b (by simp)
    have hfc : findCode (st ++ [b]) = none := by
      rw [← clean_iff]
      apply clean_ones _ hst1
      simp at hlen ⊢
      omega
    rw [hfc]
    have := ih (st ++ [b]) hst1 (fun x hx => hpad x (by simp [hx])) (by simp at hlen ⊢; omega)
    rw [this]
    simp

theorem runBits_total (s : List Nat) (hs : ∀ b ∈ s, b < 256) (pad : List Bool)
    (hp1 : ∀ b ∈ pad, b = true) (hp2 : pad.length ≤ 7) :
    runBits [] (codeBits s ++ pad) = (s, pad) := by
  induction s with
  | nil =>
    simp only [codeBits, List.nil_append]
    rw [runBits_pad pad [] (by simp) hp1 (by simpa using hp2)]
    simp
  | cons c t ih =>
    have hc : c < 257 := by
      have := hs c (by simp)
      omega
    simp only [codeBits, List.append_assoc]
    have hne : hbits c ≠ [] := by
      intro hnil
      have hl := hbits_length c
      have h5 := (tblF3 c hc).1
      rw [hnil] at hl
      simp at hl
      omega
    rw [runBits_code hc (hbits c) [] (by simp) hne (codeBits t ++ pad)]
    rw [ih (fun b hb => hs b (by simp [hb]))]

theorem byte_split (b : Nat) : natBits b 8 = natBits (b >>> 4) 4 ++ natBits (b % 16) 4 := by
  have h1 : natBits b 8 = natBits (b >>> 4) 4 ++ natBits b 4 := natBits_split b 4 4
  have h2 : natBits (b % 16) 4 = natBits b 4 := by
    have := natBits_mod b 4
    norm_num at this
    exact this
  rw [h1, h2]

theorem nib_len (v : Nat) : (natBits v 4).length = 4 := natBits_length v 4

theorem decode_go_runBits (B : List Nat) : ∀ st acc, clean st →
    (∀ x ∈ (runBits st (bitsOfBytes B)).1, x < 256) →
    decode_huffman_go B st acc = acc ++ (runBits st (bitsOfBytes B)).1 := by
  induction B with
  | nil =>
    intro st acc _ _
    simp [decode_huffman_go, bitsOfBytes, runBits]
  | cons b rest ih =>
    intro st acc hclean hno
    have hbytes : bitsOfBytes (b :: rest) =
        natBits (b >>> 4) 4 ++ (natBits (b % 16) 4 ++ bitsOfBytes rest) := by
      show natBits b 8 ++ bitsOfBytes rest = _
      rw [byte_split]
      simp
    have hrb1 := runBits_append (natBits (b >>> 4) 4) st (natBits (b % 16) 4 ++ bitsOfBytes rest)
    have hnib1 := runNib (natBits (b >>> 4) 4) st hclean (by rw [nib_len])
    rw [hbytes] at hno ⊢
    cases fc1 : findCode (st ++ natBits (b >>> 4) 4) with
    | some i =>
      rw [fc1] at hnib1
      obtain ⟨hrun1, hclean1⟩ := hnib1
      have hi257 := (findCode_some_spec fc1).1
      have hi256 : i < 256 := by
        have hmem : i ∈ (runBits st (natBits (b >>> 4) 4 ++
            (natBits (b % 16) 4 ++ bitsOfBytes rest))).1 := by
          rw [hrb1, hrun1]
          simp
        have := hno i hmem
        omega
      have hstep1 : hnib st (b >>> 4) acc =
          some ((st ++ natBits (b >>> 4) 4).drop (hcode i).2, acc ++ [i]) := by
        unfold hnib hstep
        simp only [fc1]
        simp [hi256]
      set st1 := (st ++ natBits (b >>> 4) 4).drop (hcode i).2 with hst1
      -- second nibble
      have hrb2 := runBits_append (natBits (b % 16) 4) st1 (bitsOfBytes rest)
      have hnib2 := runNib (natBits (b % 16) 4) st1 hclean1 (by rw [nib_len])
      cases fc2 : findCode (st1 ++ natBits (b % 16) 4) with
      | some j =>
        rw [fc2] at hnib2
        obtain ⟨hrun2, hclean2⟩ := hnib2
        have hj257 := (findCode_some_spec fc2).1
        have hj256 : j < 256 := by
          have hmem : j ∈ (runBits st (natBits (b >>> 4) 4 ++
              (natBits (b % 16) 4 ++ bitsOfBytes rest))).1 := by
            rw [hrb1, hrun1, hrb2, hrun2]
            simp
          have := hno j hmem
          omega
        have hstep2 : hnib st1 (b % 16) (acc ++ [i]) =
            some ((st1 ++ natBits (b % 16) 4).drop (hcode j).2, (acc ++ [i]) ++ [j]) := by
          unfold hnib hstep
          simp only [fc2]
          simp [hj256]
        show decode_huffman_go (b :: rest) st acc = _
        simp only [decode_huffman_go, hstep1, hstep2]
        rw [ih _ _ hclean2 (by
          intro x hx
          apply hno x
          rw [hrb1, hrun1, hrb2, hrun2]
          simp [hx])]
        rw [hrb1, hrun1, hrb2, hrun2]
        simp
      | none =>
        rw [fc2] at hnib2
        obtain ⟨hrun2, hclean2⟩ := hnib2
        have hstep2 : hnib st1 (b % 16) (acc ++ [i]) =
            some (st1 ++ natBits (b % 16) 4, acc ++ [i]) := by
          unfold hnib hstep
          simp only [fc2]
        show decode_huffman_go (b :: rest) st acc = _
        simp only [decode_huffman_go, hstep1, hstep2]
        rw [ih _ _ hclean2 (by
          intro x hx
          apply hno x
          rw [hrb1, hrun1, hrb2, hrun2]
          simp [hx])]
        rw [hrb1, hrun1, hrb2, hrun2]
        simp
    | none =>
      rw [fc1] at hnib1
      obtain ⟨hrun1, hclean1⟩ := hnib1
      have hstep1 : hnib st (b >>> 4) acc = some (st ++ natBits (b >>> 4) 4, acc) := by
        unfold hnib hstep
        simp only [fc1]
      set st1 := st ++ natBits (b >>> 4) 4 with hst1
      have hrb2 := runBits_append (natBits (b % 16) 4) st1 (bitsOfBytes rest)
      have hnib2 := runNib (natBits (b % 16) 4) st1 hclean1 (by rw [nib_len])
      cases fc2 : findCode (st1 ++ natBits (b % 16) 4) with
      | some j =>
        rw [fc2] at hnib2
        obtain ⟨hrun2, hclean2⟩ := hnib2
        have hj257 := (findCode_some_spec fc2).1
        have hj256 : j < 256 := by
          have hmem : j ∈ (runBits st (natBits (b >>> 4) 4 ++
              (natBits (b % 16) 4 ++ bitsOfBytes rest))).1 := by
            rw [hrb1, hrun1, hrb2, hrun2]
            simp
          have := hno j hmem
          omega
        have hstep2 : hnib st1 (b % 16) acc =
            some ((st1 ++ natBits (b % 16) 4).drop (hcode j).2, acc ++ [j]) := by
          unfold hnib hstep
          simp only [fc2]
          simp [hj256]
        show decode_huffman_go (b :: rest) st acc = _
        simp only [decode_huffman_go, hstep1, hstep2]
        rw [ih _ _ hclean2 (by
          intro x hx
          apply hno x
          rw [hrb1, hrun1, hrb2, hrun2]
          simp [hx])]
        rw [hrb1, hrun1, hrb2, hrun2]
        simp
      | none =>
        rw [fc2] at hnib2
        obtain ⟨hrun2, hclean2⟩ := hnib2
        have hstep2 : hnib st1 (b % 16) acc = some (st1 ++ natBits (b % 16) 4, acc) := by
          unfold hnib hstep
          simp only [fc2]
        show decode_huffman_go (b :: rest) st acc = _
        simp only [decode_huffman_go, hstep1, hstep2]
        rw [ih _ _ hclean2 (by
          intro x hx
          apply hno x
          rw [hrb1, hrun1, hrb2, hrun2]
          simp [hx])]
        rw [hrb1, hrun1, hrb2, hrun2]
        simp

theorem rem8_short (l : List Bool) : (rem8 l).length ≤ 7 := by
  generalize hn : l.length = n
  induction n using Nat.strong_induction_on generalizing l with
  | _ n ih =>
    rw [rem8]
    by_cases h : 8 ≤ l.length
    · rw [dif_pos h]
      exact ih (l.drop 8).length (by simp [List.length_drop]; omega) _ rfl
    · rw [dif_neg h]
      omega

theorem pack_split (Q : List Bool) : ∀ R : List Bool,
    pack (Q ++ R) = (chunks8 Q).map bitsVal ++ pack (rem8 Q ++ R) := by
  generalize hn : Q.length = n
  induction n using Nat.strong_induction_on generalizing Q with
  | _ n ih =>
    intro R
    rw [chunks8, rem8]
    by_cases h : 8 ≤ Q.length
    · rw [dif_pos h, dif_pos h]
      rw [pack]
      have hlen : 8 ≤ (Q ++ R).length := by simp; omega
      rw [dif_pos hlen]
      rw [List.take_append_of_le_length h, List.drop_append_of_le_length h]
      simp only [List.map_cons, List.cons_append]
      congr 1
      exact ih (Q.drop 8).length (by simp [List.length_drop]; omega) _ rfl R
    · rw [dif_neg h, dif_neg h]
      simp

theorem shift_window (x : Nat) : (x >>> 32) % 256 = (x % 2 ^ 40) / 2 ^ 32 := by
  have h := Nat.mod_mul_right_div_self x (2 ^ 32) (2 ^ 8)
  have h40 : (2 : Nat) ^ 32 * 2 ^ 8 = 2 ^ 40 := by norm_num
  rw [h40] at h
  rw [h, Nat.shiftRight_eq_div_pow]
  norm_num

theorem window_mod64 (x : Nat) : (x % 2 ^ 64) % 2 ^ 40 = x % 2 ^ 40 :=
  Nat.mod_mod_of_dvd x (by norm_num)

theorem hflush_spec (Q : List Bool) : ∀ (buffer count : Nat) (acc : List Nat),
    Q.length ≤ 40 → count = 40 - Q.length → buffer % 2 ^ 40 = bitsVal Q * 2 ^ count →
    (hflush buffer count acc).2.1 = 40 - (rem8 Q).length ∧
    (hflush buffer count acc).2.2 = acc ++ (chunks8 Q).map bitsVal ∧
    (hflush buffer count acc).1 % 2 ^ 40 = bitsVal (rem8 Q) * 2 ^ (40 - (rem8 Q).length) := by
  generalize hn : Q.length = n
  induction n using Nat.strong_induction_on generalizing Q with
  | _ n ih =>
    intro buffer count acc hle hcount hwin
    subst hn
    rw [hflush]
    by_cases h : 8 ≤ Q.length
    · have hcle : count ≤ 32 := by omega
      rw [if_pos hcle]
      have hQ : Q = Q.take 8 ++ Q.drop 8 := by simp
      have htlen : (Q.take 8).length = 8 := by simp; omega
      have hdlen : (Q.drop 8).length = Q.length - 8 := by simp
      have hsplitv : bitsVal Q = bitsVal (Q.take 8) * 2 ^ (Q.length - 8) + bitsVal (Q.drop 8) := by
        conv_lhs => rw [hQ]
        rw [bitsVal_append, hdlen]
      have htv : bitsVal (Q.take 8) < 2 ^ 8 := by
        have := bitsVal_lt (Q.take 8)
        rw [htlen] at this
        exact this
      have hdv : bitsVal (Q.drop 8) < 2 ^ (Q.length - 8) := by
        have := bitsVal_lt (Q.drop 8)
        rw [hdlen] at this
        exact this
      -- the emitted byte
      have hbyte : (buffer >>> 32) % 256 = bitsVal (Q.take 8) := by
        rw [shift_window, hwin, hsplitv]
        have harr : (bitsVal (Q.take 8) * 2 ^ (Q.length - 8) + bitsVal (Q.drop 8)) * 2 ^ count =
            2 ^ 32 * bitsVal (Q.take 8) + bitsVal (Q.drop 8) * 2 ^ count := by
          have hexp : (Q.length - 8) + count = 32 := by omega
          calc (bitsVal (Q.take 8) * 2 ^ (Q.length - 8) + bitsVal (Q.drop 8)) * 2 ^ count
              = bitsVal (Q.take 8) * (2 ^ (Q.length - 8) * 2 ^ count) +
                bitsVal (Q.drop 8) * 2 ^ count := by ring
            _ = 2 ^ 32 * bitsVal (Q.take 8) + bitsVal (Q.drop 8) * 2 ^ count := by
                rw [← pow_add, hexp]
                ring
        rw [harr, Nat.mul_add_div (by positivity)]
        have hr : bitsVal (Q.drop 8) * 2 ^ count < 2 ^ 32 := by
          calc bitsVal (Q.drop 8) * 2 ^ count < 2 ^ (Q.length - 8) * 2 ^ count :=
              mul_lt_mul_of_pos_right hdv (by positivity)
            _ = 2 ^ 32 := by rw [← pow_add]; congr 1; omega
        rw [Nat.div_eq_of_lt hr]
        omega
      -- the new window
      have hwin2 : ((buffer <<< 8) % 2 ^ 64) % 2 ^ 40 =
          bitsVal (Q.drop 8) * 2 ^ (count + 8) := by
        rw [window_mod64, Nat.shiftLeft_eq]
        have h40 : (2 : Nat) ^ 40 = 2 ^ 32 * 2 ^ 8 := by norm_num
        rw [h40, Nat.mul_mod_mul_right]
        have hb32 : buffer % 2 ^ 32 = bitsVal (Q.drop 8) * 2 ^ count := by
          have hsub : buffer % 2 ^ 32 = (buffer % 2 ^ 40) % 2 ^ 32 :=
            (Nat.mod_mod_of_dvd buffer (by norm_num)).symm
          rw [hsub, hwin, hsplitv]
          have harr : (bitsVal (Q.take 8) * 2 ^ (Q.length - 8) + bitsVal (Q.drop 8)) * 2 ^ count =
              2 ^ 32 * bitsVal (Q.take 8) + bitsVal (Q.drop 8) * 2 ^ count := by
            have hexp : (Q.length - 8) + count = 32 := by omega
            calc (bitsVal (Q.take 8) * 2 ^ (Q.length - 8) + bitsVal (Q.drop 8)) * 2 ^ count
                = bitsVal (Q.take 8) * (2 ^ (Q.length - 8) * 2 ^ count) +
                  bitsVal (Q.drop 8) * 2 ^ count := by ring
              _ = 2 ^ 32 * bitsVal (Q.take 8) + bitsVal (Q.drop 8) * 2 ^ count := by
                  rw [← pow_add, hexp]
                  ring
          rw [harr, Nat.mul_add_mod]
          apply Nat.mod_eq_of_lt
          calc bitsVal (Q.drop 8) * 2 ^ count < 2 ^ (Q.length - 8) * 2 ^ count :=
              mul_lt_mul_of_pos_right hdv (by positivity)
            _ = 2 ^ 32 := by rw [← pow_add]; congr 1; omega
        rw [hb32, pow_add]
        ring
      have := ih (Q.drop 8).length (by simp [List.length_drop]; omega) (Q.drop 8) rfl
        ((buffer <<< 8) % 2 ^ 64) (count + 8) (acc ++ [(buffer >>> 32) % 256])
        (by simp [List.length_drop]; omega) (by simp [List.length_drop]; omega) hwin2
      obtain ⟨h1, h2, h3⟩ := this
      have hrem : rem8 Q = rem8 (Q.drop 8) := by
        rw [rem8, dif_pos h]
      have hchunks : chunks8 Q = Q.take 8 :: chunks8 (Q.drop 8) := by
        rw [chunks8, dif_pos h]
      refine ⟨?_, ?_, ?_⟩
      · rw [h1, hrem]
      · rw [h2, hbyte, hchunks]
        simp
      · rw [h3, hrem]
    · have hcgt : ¬ (count ≤ 32) := by omega
      rw [if_neg hcgt]
      have hrem : rem8 Q = Q := by
        rw [rem8, dif_neg h]
      have hchunks : chunks8 Q = [] := by
        rw [chunks8, dif_neg h]
      refine ⟨by simp [hrem, hcount], by simp [hchunks], ?_⟩
      show buffer % 2 ^ 40 = bitsVal (rem8 Q) * 2 ^ (40 - (rem8 Q).length)
      rw [hrem, ← hcount]
      exact hwin

theorem hcode_lt (i : Nat) : (hcode i).1 < 2 ^ (hcode i).2 := by
  by_cases h : i < 257
  · exact HuffTable.tblF2 i h
  · rw [HuffTable.tblOut i (by omega)]
    norm_num

theorem encode_go_pack (s : List Nat) : ∀ (P : List Bool) (buffer count : Nat) (acc : List Nat),
    (∀ b ∈ s, b < 257) → P.length ≤ 7 → count = 40 - P.length →
    buffer % 2 ^ 40 = bitsVal P * 2 ^ count →
    encode_huffman_go s buffer count acc = acc ++ pack (P ++ codeBits s) := by
  induction s with
  | nil =>
    intro P buffer count acc _ hP hcount hwin
    simp only [encode_huffman_go, codeBits, List.append_nil]
    by_cases hPe : P = []
    · subst hPe
      simp only [List.length_nil] at hcount
      have hc40 : count = 40 := by omega
      rw [if_neg (by omega)]
      have hpn : pack ([] : List Bool) = [] := by
        rw [pack]
        simp
      rw [hpn, List.append_nil]
    · have hlen : 1 ≤ P.length := by
        cases P with
        | nil => exact absurd rfl hPe
        | cons a t => simp
      have hcne : count ≠ 40 := by omega
      rw [if_pos hcne]
      have hpp : pack P = [bitsVal (P ++ List.replicate (8 - P.length) true)] := by
        rw [pack, dif_neg (by omega)]
        rw [if_neg (by simp [hPe])]
      rw [hpp]
      have hmlt : 2 ^ count - 1 < 2 ^ count := Nat.sub_lt (by positivity) one_pos
      have hc40le : (2 : Nat) ^ count ≤ 2 ^ 40 := Nat.pow_le_pow_right (by omega) (by omega)
      have hbyte : ((buffer ||| ((1 <<< count) - 1)) >>> 32) % 256 =
          bitsVal (P ++ List.replicate (8 - P.length) true) := by
        rw [Nat.one_shiftLeft, shift_window, Httpe.or_mod_two_pow, hwin,
          Nat.mod_eq_of_lt (lt_of_lt_of_le hmlt hc40le),
          Httpe.or_disj_eq_add count _ _ (Nat.mul_mod_left _ _) hmlt]
        rw [bitsVal_append, List.length_replicate, bitsVal_replicate_true]
        have he : count = 32 + (8 - P.length) := by omega
        rw [he]
        have h2e : 1 ≤ 2 ^ (8 - P.length) := Nat.one_le_two_pow
        have key : bitsVal P * 2 ^ (32 + (8 - P.length)) + (2 ^ (32 + (8 - P.length)) - 1) =
            2 ^ 32 * (bitsVal P * 2 ^ (8 - P.length) + (2 ^ (8 - P.length) - 1)) +
              (2 ^ 32 - 1) := by
          rw [pow_add]
          have hmm : bitsVal P * (2 ^ 32 * 2 ^ (8 - P.length)) =
              2 ^ 32 * (bitsVal P * 2 ^ (8 - P.length)) := by ring
          rw [hmm]
          generalize bitsVal P * 2 ^ (8 - P.length) = F
          generalize 2 ^ (8 - P.length) = E at h2e ⊢
          omega
        rw [key, Nat.mul_add_div (by positivity), Nat.div_eq_of_lt (by norm_num), Nat.add_zero]
      rw [hbyte]
  | cons i rest ih =>
    intro P buffer count acc hs hP hcount hwin
    have hi : i < 257 := hs i (by simp)
    have hc1 := HuffTable.tblF2 i hi
    have hc25 := (HuffTable.tblF3 i hi).1
    have hc230 := (HuffTable.tblF3 i hi).2
    have hbv : bitsVal (hbits i) = (hcode i).1 := by
      show bitsVal (natBits (hcode i).1 (hcode i).2) = (hcode i).1
      rw [bitsVal_natBits, Nat.mod_eq_of_lt hc1]
    have hltc : (hcode i).1 * 2 ^ (count - (hcode i).2) < 2 ^ count := by
      calc (hcode i).1 * 2 ^ (count - (hcode i).2)
          < 2 ^ (hcode i).2 * 2 ^ (count - (hcode i).2) :=
            mul_lt_mul_of_pos_right hc1 (by positivity)
        _ = 2 ^ count := by
            rw [← pow_add]
            congr 1
            omega
    have hc40 : (2 : Nat) ^ count ≤ 2 ^ 40 := Nat.pow_le_pow_right (by omega) (by omega)
    have hsh : ((hcode i).1 <<< (count - (hcode i).2)) % 2 ^ 64 =
        (hcode i).1 * 2 ^ (count - (hcode i).2) := by
      rw [Nat.shiftLeft_eq]
      exact Nat.mod_eq_of_lt (lt_of_lt_of_le hltc
        (le_trans hc40 (Nat.pow_le_pow_right (by omega) (by omega))))
    have hwin2 : (buffer ||| (((hcode i).1 <<< (count - (hcode i).2)) % 2 ^ 64)) % 2 ^ 40 =
        bitsVal (P ++ hbits i) * 2 ^ (count - (hcode i).2) := by
      rw [hsh, Httpe.or_mod_two_pow, hwin, Nat.mod_eq_of_lt (lt_of_lt_of_le hltc hc40),
        Httpe.or_disj_eq_add count _ _ (Nat.mul_mod_left _ _) hltc]
      rw [bitsVal_append, hbits_length, hbv, Nat.add_mul, Nat.mul_assoc, ← pow_add]
      have hce : (hcode i).2 + (count - (hcode i).2) = count := by omega
      rw [hce]
    have hflu := hflush_spec (P ++ hbits i)
      (buffer ||| (((hcode i).1 <<< (count - (hcode i).2)) % 2 ^ 64))
      (count - (hcode i).2) acc
      (by rw [List.length_append, hbits_length]; omega)
      (by rw [List.length_append, hbits_length]; omega)
      hwin2
    obtain ⟨h1, h2, h3⟩ := hflu
    have hwin3 : (hflush (buffer ||| (((hcode i).1 <<< (count - (hcode i).2)) % 2 ^ 64))
        (count - (hcode i).2) acc).1 % 2 ^ 40 =
        bitsVal (rem8 (P ++ hbits i)) * 2 ^
          ((hflush (buffer ||| (((hcode i).1 <<< (count - (hcode i).2)) % 2 ^ 64))
            (count - (hcode i).2) acc).2.1) := by
      rw [h1]
      exact h3
    have hrest : ∀ b ∈ rest, b < 257 := fun b hb => hs b (List.mem_cons_of_mem i hb)
    simp only [encode_huffman_go]
    rw [ih _ _ _ _ hrest (rem8_short _) h1 hwin3]
    simp only [codeBits]
    rw [h2, ← List.append_assoc P, pack_split (P ++ hbits i) (codeBits rest), List.append_assoc]

theorem encode_pack (s : List Nat) (hs : ∀ b ∈ s, b < 257) :
    encode_huffman s = pack (codeBits s) := by
  show encode_huffman_go s 0 40 [] = pack (codeBits s)
  have h := encode_go_pack s [] 0 40 [] hs (by simp) (by simp) (by simp [bitsVal])
  simpa using h

theorem bitsOfBytes_pack (l : List Bool) :
    bitsOfBytes (pack l) = l ++ List.replicate ((8 - l.length % 8) % 8) true := by
  generalize hn : l.length = n
  induction n using Nat.strong_induction_on generalizing l with
  | _ n ih =>
    subst hn
    rw [pack]
    by_cases h : 8 ≤ l.length
    · rw [dif_pos h]
      have htlen : (l.take 8).length = 8 := by simp; omega
      have hstep : bitsOfBytes (bitsVal (l.take 8) :: pack (l.drop 8)) =
          natBits (bitsVal (l.take 8)) 8 ++ bitsOfBytes (pack (l.drop 8)) := rfl
      rw [hstep]
      have hnb : natBits (bitsVal (l.take 8)) 8 = l.take 8 := by
        have := natBits_bitsVal (l.take 8)
        rw [htlen] at this
        exact this
      rw [hnb, ih (l.drop 8).length (by simp [List.length_drop]; omega) _ rfl]
      have hmod : ((l.drop 8).length % 8) = l.length % 8 := by
        simp only [List.length_drop]
        omega
      rw [hmod, ← List.append_assoc, List.take_append_drop]
    · rw [dif_neg h]
      by_cases he : l.isEmpty
      · rw [if_pos he]
        have hl0 : l = [] := by
          cases l with
          | nil => rfl
          | cons a t => simp [List.isEmpty] at he
        subst hl0
        simp [bitsOfBytes]
      · rw [if_neg he]
        have hl1 : 1 ≤ l.length := by
          cases l with
          | nil => simp [List.isEmpty] at he
          | cons a t => simp
        have hxlen : (l ++ List.replicate (8 - l.length) true).length = 8 := by
          simp
          omega
        have hstep : bitsOfBytes [bitsVal (l ++ List.replicate (8 - l.length) true)] =
            natBits (bitsVal (l ++ List.replicate (8 - l.length) true)) 8 ++ [] := rfl
        rw [hstep, List.append_nil]
        have hnb := natBits_bitsVal (l ++ List.replicate (8 - l.length) true)
        rw [hxlen] at hnb
        rw [hnb]
        congr 2
        omega

/-- Huffman round-trip at the level of encoder output bytes. -/
theorem huffman_roundtrip (s : List Nat) (hs : ∀ b ∈ s, b < 256) :
    decode_huffman (encode_huffman s) = s := by
  have hs' : ∀ b ∈ s, b < 257 := fun b hb => Nat.lt_succ_of_lt (hs b hb)
  rw [encode_pack s hs']
  show decode_huffman_go (pack (codeBits s)) [] [] = s
  have hrt := runBits_total s hs
    (List.replicate ((8 - (codeBits s).length % 8) % 8) true)
    (fun b hb => List.eq_of_mem_replicate hb)
    (by rw [List.length_replicate]; omega)
  have hbb := bitsOfBytes_pack (codeBits s)
  rw [decode_go_runBits (pack (codeBits s)) [] [] (clean_short [] (by simp))
    (by rw [hbb, hrt]; exact hs)]
  rw [hbb, hrt]
  simp

/-- Claim C8: for every byte string `s`, `decode_huffman (encode_huffman s)`
emits exactly `s`; moreover the encoder's output bytes are exactly the
RFC 7541 codes of `s` packed MSB-first, with the final partial byte padded
with 1 bits. -/
theorem c8_main (s : List Nat) (hs : ∀ b ∈ s, b < 256) :
    decode_huffman (encode_huffman s) = s ∧
    bitsOfBytes (encode_huffman s) =
      codeBits s ++ List.replicate ((8 - (codeBits s).length % 8) % 8) true := by
  have hs' : ∀ b ∈ s, b < 257 := fun b hb => Nat.lt_succ_of_lt (hs b hb)
  refine ⟨huffman_roundtrip s hs, ?_⟩
  rw [encode_pack s hs', bitsOfBytes_pack]

theorem c8_witness :
    (∀ b ∈ ([119, 119, 119, 46, 101, 120, 97, 109, 112, 108, 101, 46, 99, 111, 109] :
        List Nat), b < 256) ∧
    (decode_huffman (encode_huffman
        [119, 119, 119, 46, 101, 120, 97, 109, 112, 108, 101, 46, 99, 111, 109]) =
      [119, 119, 119, 46, 101, 120, 97, 109, 112, 108, 101, 46, 99, 111, 109] ∧
    bitsOfBytes (encode_huffman
        [119, 119, 119, 46, 101, 120, 97, 109, 112, 108, 101, 46, 99, 111, 109]) =
      codeBits [119, 119, 119, 46, 101, 120, 97, 109, 112, 108, 101, 46, 99, 111, 109] ++
        List.replicate ((8 - (codeBits [119, 119, 119, 46, 101, 120, 97, 109, 112, 108,
          101, 46, 99, 111, 109]).length % 8) % 8) true) :=
  ⟨by decide, c8_main _ (by decide)⟩

end HuffCorrect

